import Mathlib

/-!
Shallow embedding of the tax-harvest lot-tracking accounting engine.

Sources embedded:
* `src/unnamed/part_009` — the holdings calculator (FIFO engine, classifier,
  realized-gains aggregator);
* `src/src/lib/utils/csv-parser.ts` — `mergeTradebooks`;
* `src/src/lib/stores/prices.ts` — `classifyLotsByHoldingPeriod`,
  `updateHoldingsWithPrices` (the pure per-holding overlay inside the store
  update);
* `src/src/lib/stores/holdings.ts` — `stclOpportunities`, `ltclOpportunities`
  (the pure filter predicates of the derived stores).

Modelling conventions:
* JavaScript `Date` values are modelled as `Int` day numbers; date-fns
  `differenceInDays(a, b)` at day granularity is `a - b`, and `Date`
  comparison is `Int` comparison.
* JavaScript floating-point numbers are modelled as exact rationals `Rat`.
* The wall clock (`new Date()` in `classifyHolding`,
  `classifyLotsByHoldingPeriod`) and the fiscal-year start
  (`getCurrentFyStartDate`) are explicit parameters `now` and `fyStart`.
* `Array.prototype.sort` (required stable since ES2019) is modelled by the
  stable `List.insertionSort`; a JS `Map`'s insertion-order semantics are
  modelled by an association list that appends new keys at the end.
* In-place mutation of the lot array in `applyFifoSell` is modelled by
  returning the updated list.
-/

/-- `Classification` union type from `$lib/types`. -/
inductive Classification where
  | SHORT_TERM
  | LONG_TERM
deriving DecidableEq, Repr

/-- Trade side; the `tradeType` field of a `TradeRecord`. -/
inductive TradeType where
  | buy
  | sell
deriving DecidableEq, Repr

/-- `TradeRecord` from `$lib/types` (fields used by the embedded code). -/
structure TradeRecord where
  tradeId : String
  symbol : String
  isin : String
  exchange : String
  tradeDate : Int
  tradeType : TradeType
  quantity : Rat
  price : Rat
deriving DecidableEq, Repr

/-- `HoldingLot` from `$lib/types`: one purchase lot. -/
structure HoldingLot where
  quantity : Rat
  purchaseDate : Int
  purchasePrice : Rat
deriving DecidableEq, Repr

/-- `RealizedGainEntry` from `$lib/types`. -/
structure RealizedGainEntry where
  symbol : String
  exchange : String
  quantity : Rat
  sellDate : Int
  sellPrice : Rat
  purchasePrice : Rat
  purchaseDate : Int
  gainLoss : Rat
  classification : Classification
deriving DecidableEq, Repr

/-- `RealizedGainsSummary` from `$lib/types`. -/
structure RealizedGainsSummary where
  stcg : Rat
  stcl : Rat
  ltcg : Rat
  ltcl : Rat
  netShortTerm : Rat
  netLongTerm : Rat
  entries : List RealizedGainEntry
deriving DecidableEq, Repr

/-- `Holding` from `$lib/types`; the optional fields are populated by the
price overlay (`updateHoldingsWithPrices`) and absent (`none`) on holdings
freshly produced by the FIFO engine. -/
structure Holding where
  symbol : String
  isin : String
  exchange : String
  lots : List HoldingLot
  totalQuantity : Rat
  avgPurchasePrice : Rat
  oldestPurchaseDate : Int
  newestPurchaseDate : Int
  classification : Classification
  currentPrice : Option Rat := none
  pnl : Option Rat := none
  pnlPercent : Option Rat := none
  isLoss : Option Bool := none
  stQuantity : Option Rat := none
  ltQuantity : Option Rat := none
  stAvgPrice : Option Rat := none
  ltAvgPrice : Option Rat := none
  stPnl : Option Rat := none
  ltPnl : Option Rat := none
deriving DecidableEq, Repr

/-- date-fns `differenceInDays` on day-granularity dates. -/
def differenceInDays (a b : Int) : Int := a - b

/-- `createHoldingKey` (part_009 lines 23-25): template string
`symbol:exchange`. -/
def createHoldingKey (symbol exchange : String) : String :=
  symbol ++ ":" ++ exchange

/-- `sortTradesChronologically` (part_009 lines 31-33): stable sort by
`tradeDate` ascending. -/
def sortTradesChronologically (trades : List TradeRecord) : List TradeRecord :=
  List.insertionSort (fun a b => a.tradeDate ≤ b.tradeDate) trades

/-- One step of `groupTradesByHolding`'s loop body: `groups.get(key) || []`,
push, `groups.set(key, ...)`. A JS `Map` keeps keys in first-insertion
order, so a new key is appended at the end. -/
def insertTrade (groups : List (String × List TradeRecord)) (key : String)
    (t : TradeRecord) : List (String × List TradeRecord) :=
  match groups with
  | [] => [(key, [t])]
  | (k, ts) :: rest =>
    if k = key then (k, ts ++ [t]) :: rest
    else (k, ts) :: insertTrade rest key t

/-- `groupTradesByHolding` (part_009 lines 39-50). -/
def groupTradesByHolding (trades : List TradeRecord) :
    List (String × List TradeRecord) :=
  trades.foldl (fun gs t => insertTrade gs (createHoldingKey t.symbol t.exchange) t) []

/-- The `for` loop of `applyFifoSell` (part_009 lines 78-100): walks the lot
list while `remainingToSell > 0`, consuming from the front. Returns the
updated lot array, the `consumedLots` list (same record shape as a lot) and
the final `remainingToSell`. -/
def applyFifoSellGo : List HoldingLot → Rat →
    List HoldingLot × List HoldingLot × Rat
  | lots, remainingToSell =>
    match lots with
    | [] => ([], [], remainingToSell)
    | lot :: rest =>
      if 0 < remainingToSell then
        if lot.quantity ≤ remainingToSell then
          let r := applyFifoSellGo rest (remainingToSell - lot.quantity)
          ({ lot with quantity := 0 } :: r.1,
           { quantity := lot.quantity, purchaseDate := lot.purchaseDate,
             purchasePrice := lot.purchasePrice } :: r.2.1,
           r.2.2)
        else
          ({ lot with quantity := lot.quantity - remainingToSell } :: rest,
           [{ quantity := remainingToSell, purchaseDate := lot.purchaseDate,
              purchasePrice := lot.purchasePrice }],
           0)
      else (lot :: rest, [], remainingToSell)

/-- `applyFifoSell` (part_009 lines 73-125), restricted to the outputs the
caller `processTradesForHolding` consumes: the mutated lot array, the
`consumedLots` list, and the leftover `remainingToSell` (which the source
only logs as a warning when positive). -/
def applyFifoSell (lots : List HoldingLot) (sellQuantity : Rat) :
    List HoldingLot × List HoldingLot × Rat :=
  applyFifoSellGo lots sellQuantity

/-- `removeEmptyLots` (part_009 lines 130-132). -/
def removeEmptyLots (lots : List HoldingLot) : List HoldingLot :=
  lots.filter (fun lot => 0 < lot.quantity)

/-- `calculateAvgPurchasePrice` (part_009 lines 137-151). -/
def calculateAvgPurchasePrice (lots : List HoldingLot) : Rat :=
  if lots.isEmpty then 0
  else
    let totalValue := (lots.map (fun lot => lot.quantity * lot.purchasePrice)).sum
    let totalQuantity := (lots.map (fun lot => lot.quantity)).sum
    if 0 < totalQuantity then totalValue / totalQuantity else 0

/-- `calculateTotalQuantity` (part_009 lines 156-158). -/
def calculateTotalQuantity (lots : List HoldingLot) : Rat :=
  (lots.map (fun lot => lot.quantity)).sum

/-- `findOldestPurchaseDate` (part_009 lines 163-172); `new Date()` on an
empty lot list is the explicit `now` parameter. -/
def findOldestPurchaseDate (now : Int) (lots : List HoldingLot) : Int :=
  match lots with
  | [] => now
  | l :: _ =>
    lots.foldl (fun oldest lot =>
      if lot.purchaseDate < oldest then lot.purchaseDate else oldest)
      l.purchaseDate

/-- `findNewestPurchaseDate` (part_009 lines 177-186). -/
def findNewestPurchaseDate (now : Int) (lots : List HoldingLot) : Int :=
  match lots with
  | [] => now
  | l :: _ =>
    lots.foldl (fun newest lot =>
      if newest < lot.purchaseDate then lot.purchaseDate else newest)
      l.purchaseDate

/-- `classifyHolding` (part_009 lines 200-203); `new Date()` is the explicit
`now` parameter. -/
def classifyHolding (now oldestPurchaseDate : Int) : Classification :=
  if differenceInDays now oldestPurchaseDate ≤ 365 then .SHORT_TERM
  else .LONG_TERM

/-- `HoldingAccumulator` (part_009 lines 12-17). -/
structure HoldingAccumulator where
  symbol : String
  isin : String
  exchange : String
  lots : List HoldingLot
deriving DecidableEq, Repr

/-- The realized-gain entries pushed for one sell trade
(part_009 lines 260-280): one entry per consumed lot. -/
def realizedEntriesForSell (trade : TradeRecord) (consumedLots : List HoldingLot) :
    List RealizedGainEntry :=
  consumedLots.map (fun consumedLot =>
    let sellValue := consumedLot.quantity * trade.price
    let costBasis := consumedLot.quantity * consumedLot.purchasePrice
    let holdingDays := differenceInDays trade.tradeDate consumedLot.purchaseDate
    { symbol := trade.symbol
      exchange := trade.exchange
      quantity := consumedLot.quantity
      sellDate := trade.tradeDate
      sellPrice := trade.price
      purchasePrice := consumedLot.purchasePrice
      purchaseDate := consumedLot.purchaseDate
      gainLoss := sellValue - costBasis
      classification := if holdingDays ≤ 365 then .SHORT_TERM else .LONG_TERM })

/-- Body of the `for (const trade of sortedTrades)` loop of
`processTradesForHolding` (part_009 lines 241-285). -/
def processTrade (state : HoldingAccumulator × List RealizedGainEntry)
    (trade : TradeRecord) : HoldingAccumulator × List RealizedGainEntry :=
  let acc := state.1
  let gains := state.2
  let acc := if trade.isin ≠ "" ∧ acc.isin = "" then { acc with isin := trade.isin } else acc
  match trade.tradeType with
  | .buy =>
    ({ acc with lots := acc.lots ++
        [{ quantity := trade.quantity, purchaseDate := trade.tradeDate,
           purchasePrice := trade.price }] },
     gains)
  | .sell =>
    let fifoResult := applyFifoSell acc.lots trade.quantity
    ({ acc with lots := removeEmptyLots fifoResult.1 },
     gains ++ realizedEntriesForSell trade fifoResult.2.1)

/-- `processTradesForHolding` (part_009 lines 221-293): `none` in the first
component is the source's `accumulator: null` (empty group or fully sold). -/
def processTradesForHolding (trades : List TradeRecord) :
    Option HoldingAccumulator × List RealizedGainEntry :=
  match sortTradesChronologically trades with
  | [] => (none, [])
  | firstTrade :: restTrades =>
    let init : HoldingAccumulator :=
      { symbol := firstTrade.symbol, isin := firstTrade.isin,
        exchange := firstTrade.exchange, lots := [] }
    let result := (firstTrade :: restTrades).foldl processTrade (init, [])
    if result.1.lots.isEmpty then (none, result.2)
    else (some result.1, result.2)

/-- `summarizeRealizedGains` (part_009 lines 322-358); the fiscal-year start
computed by `getCurrentFyStartDate` from the wall clock is the explicit
`fyStart` parameter. -/
def summarizeRealizedGains (fyStart : Int) (entries : List RealizedGainEntry) :
    RealizedGainsSummary :=
  let fyEntries := entries.filter (fun e => fyStart ≤ e.sellDate)
  let buckets := fyEntries.foldl (fun (b : Rat × Rat × Rat × Rat) entry =>
    match entry.classification with
    | .SHORT_TERM =>
      if 0 ≤ entry.gainLoss then (b.1 + entry.gainLoss, b.2.1, b.2.2.1, b.2.2.2)
      else (b.1, b.2.1 + |entry.gainLoss|, b.2.2.1, b.2.2.2)
    | .LONG_TERM =>
      if 0 ≤ entry.gainLoss then (b.1, b.2.1, b.2.2.1 + entry.gainLoss, b.2.2.2)
      else (b.1, b.2.1, b.2.2.1, b.2.2.2 + |entry.gainLoss|))
    (0, 0, 0, 0)
  { stcg := buckets.1, stcl := buckets.2.1, ltcg := buckets.2.2.1,
    ltcl := buckets.2.2.2,
    netShortTerm := buckets.1 - buckets.2.1,
    netLongTerm := buckets.2.2.1 - buckets.2.2.2,
    entries := fyEntries }

/-- Construction of the output `Holding` from a surviving accumulator
(part_009 lines 409-428). -/
def mkHolding (now : Int) (acc : HoldingAccumulator) : Holding :=
  { symbol := acc.symbol
    isin := acc.isin
    exchange := acc.exchange
    lots := acc.lots
    totalQuantity := calculateTotalQuantity acc.lots
    avgPurchasePrice := calculateAvgPurchasePrice acc.lots
    oldestPurchaseDate := findOldestPurchaseDate now acc.lots
    newestPurchaseDate := findNewestPurchaseDate now acc.lots
    classification := classifyHolding now (findOldestPurchaseDate now acc.lots) }

/-- `PortfolioAnalysis` (part_009 lines 298-301). -/
structure PortfolioAnalysis where
  holdings : List Holding
  realizedGains : RealizedGainsSummary
deriving DecidableEq, Repr

/-- `analyzePortfolio` (part_009 lines 383-438); `now` and `fyStart` are the
wall-clock inputs, holdings are sorted ascending by symbol (stable). -/
def analyzePortfolio (now fyStart : Int) (trades : List TradeRecord) :
    PortfolioAnalysis :=
  if trades.isEmpty then
    { holdings := []
      realizedGains := { stcg := 0, stcl := 0, ltcg := 0, ltcl := 0,
                         netShortTerm := 0, netLongTerm := 0, entries := [] } }
  else
    let tradeGroups := groupTradesByHolding trades
    let results := tradeGroups.map (fun g => processTradesForHolding g.2)
    let holdings := results.filterMap (fun r => r.1.map (mkHolding now))
    let allRealizedGains := (results.map (fun r => r.2)).flatten
    { holdings := List.insertionSort (fun a b => a.symbol ≤ b.symbol) holdings
      realizedGains := summarizeRealizedGains fyStart allRealizedGains }

/-- `calculateHoldings` (part_009 lines 373-375). -/
def calculateHoldings (now fyStart : Int) (trades : List TradeRecord) :
    List Holding :=
  (analyzePortfolio now fyStart trades).holdings

/-- `mergeTradebooks` (csv-parser.ts lines 224-244): flatten, dedupe by
`tradeId` keeping the first occurrence, stable-sort by `tradeDate`. -/
def dedupeByIdAux (seen : List String) : List TradeRecord → List TradeRecord
  | [] => []
  | t :: ts =>
    if t.tradeId ∈ seen then dedupeByIdAux seen ts
    else t :: dedupeByIdAux (t.tradeId :: seen) ts

/-- The set of trade ids known after the dedupe walk of `mergeTradebooks`
has processed a list (the keys of `uniqueTradesMap`). -/
def seenAfter (seen : List String) : List TradeRecord → List String
  | [] => seen
  | t :: ts =>
    if t.tradeId ∈ seen then seenAfter seen ts
    else seenAfter (t.tradeId :: seen) ts

/-- `mergeTradebooks` (csv-parser.ts lines 224-244). -/
def mergeTradebooks (tradeLists : List (List TradeRecord)) : List TradeRecord :=
  let allTrades := tradeLists.flatten
  let uniqueTrades := dedupeByIdAux [] allTrades
  List.insertionSort (fun a b => a.tradeDate ≤ b.tradeDate) uniqueTrades

/-- `NseQuote` (prices.ts lines 64-71). -/
structure NseQuote where
  lastPrice : Rat
  change : Rat
  pChange : Rat
deriving DecidableEq, Repr

/-- `LotClassification` (prices.ts lines 244-251). -/
structure LotClassification where
  stQuantity : Rat
  ltQuantity : Rat
  stAvgPrice : Rat
  ltAvgPrice : Rat
  stPnl : Rat
  ltPnl : Rat
deriving DecidableEq, Repr

/-- `classifyLotsByHoldingPeriod` (prices.ts lines 253-292); `new Date()` is
the explicit `now` parameter. -/
def classifyLotsByHoldingPeriod (now : Int) (lots : List HoldingLot)
    (currentPrice : Rat) : LotClassification :=
  let acc := lots.foldl (fun (s : Rat × Rat × Rat × Rat) lot =>
    let holdingDays := differenceInDays now lot.purchaseDate
    let lotCost := lot.quantity * lot.purchasePrice
    if holdingDays ≤ 365 then (s.1 + lot.quantity, s.2.1, s.2.2.1 + lotCost, s.2.2.2)
    else (s.1, s.2.1 + lot.quantity, s.2.2.1, s.2.2.2 + lotCost))
    (0, 0, 0, 0)
  let stQuantity := acc.1
  let ltQuantity := acc.2.1
  let stTotalCost := acc.2.2.1
  let ltTotalCost := acc.2.2.2
  let stCurrentValue := stQuantity * currentPrice
  let ltCurrentValue := ltQuantity * currentPrice
  { stQuantity := stQuantity
    ltQuantity := ltQuantity
    stAvgPrice := if 0 < stQuantity then stTotalCost / stQuantity else 0
    ltAvgPrice := if 0 < ltQuantity then ltTotalCost / ltQuantity else 0
    stPnl := stCurrentValue - stTotalCost
    ltPnl := ltCurrentValue - ltTotalCost }

/-- The per-holding body of `updateHoldingsWithPrices` (prices.ts lines
300-336): overlays quote data on one holding, or returns it unchanged when
no quote matches its symbol. -/
def overlayHolding (now : Int) (quotes : List (String × NseQuote))
    (holding : Holding) : Holding :=
  match quotes.lookup holding.symbol with
  | none => holding
  | some quote =>
    let currentPrice := quote.lastPrice
    let totalCost := holding.avgPurchasePrice * holding.totalQuantity
    let currentValue := currentPrice * holding.totalQuantity
    let pnl := currentValue - totalCost
    let pnlPercent := if 0 < totalCost then pnl / totalCost * 100 else 0
    let isLoss := pnl < 0
    let lotClassification := classifyLotsByHoldingPeriod now holding.lots currentPrice
    { holding with
      currentPrice := some currentPrice
      pnl := some pnl
      pnlPercent := some pnlPercent
      isLoss := some isLoss
      stQuantity := some lotClassification.stQuantity
      ltQuantity := some lotClassification.ltQuantity
      stAvgPrice := some lotClassification.stAvgPrice
      ltAvgPrice := some lotClassification.ltAvgPrice
      stPnl := some lotClassification.stPnl
      ltPnl := some lotClassification.ltPnl }

/-- `updateHoldingsWithPrices` (prices.ts lines 300-336): the pure map the
store update applies to the current holdings. -/
def updateHoldingsWithPrices (now : Int) (quotes : List (String × NseQuote))
    (holdings : List Holding) : List Holding :=
  holdings.map (overlayHolding now quotes)

/-- Filter predicate of the `stclOpportunities` derived store
(holdings.ts lines 53-58). -/
def isStclOpportunity (holding : Holding) : Bool :=
  (match holding.stQuantity with
   | none => false
   | some q => decide (0 < q)) &&
  (match holding.stPnl with
   | none => false
   | some p => decide (p < 0))

/-- Filter predicate of the `ltclOpportunities` derived store
(holdings.ts lines 67-72). -/
def isLtclOpportunity (holding : Holding) : Bool :=
  (match holding.ltQuantity with
   | none => false
   | some q => decide (0 < q)) &&
  (match holding.ltPnl with
   | none => false
   | some p => decide (p < 0))

/-- `stclOpportunities` (holdings.ts lines 53-58). -/
def stclOpportunities (holdings : List Holding) : List Holding :=
  holdings.filter isStclOpportunity

/-- `ltclOpportunities` (holdings.ts lines 67-72). -/
def ltclOpportunities (holdings : List Holding) : List Holding :=
  holdings.filter isLtclOpportunity

/-! ### Derived definitions used by the verification -/

/-- The grouping key of one trade. -/
def tradeKey (t : TradeRecord) : String :=
  createHoldingKey t.symbol t.exchange

/-- Total quantity bought in a trade list. -/
def buyQuantity (ts : List TradeRecord) : Rat :=
  ((ts.filter (fun t => t.tradeType = .buy)).map (fun t => t.quantity)).sum

/-- Total quantity sold in a trade list. -/
def sellQuantity (ts : List TradeRecord) : Rat :=
  ((ts.filter (fun t => t.tradeType = .sell)).map (fun t => t.quantity)).sum

/-- Reference aggregation of realized gains, written from the spec's words
(spec section 4.4): filter to `sellDate >= fiscalYearStart`; each bucket is
the sum over retained entries routed by classification and sign, losses as
absolute values; nets are gain minus loss. Used only to compare against
`summarizeRealizedGains`. -/
def summarizeRealizedGainsSpec (fyStart : Int) (entries : List RealizedGainEntry) :
    RealizedGainsSummary :=
  let fyEntries := entries.filter (fun e => fyStart ≤ e.sellDate)
  let stcg := ((fyEntries.filter (fun e =>
    e.classification = .SHORT_TERM ∧ 0 < e.gainLoss)).map (fun e => e.gainLoss)).sum
  let stcl := ((fyEntries.filter (fun e =>
    e.classification = .SHORT_TERM ∧ e.gainLoss < 0)).map (fun e => |e.gainLoss|)).sum
  let ltcg := ((fyEntries.filter (fun e =>
    e.classification = .LONG_TERM ∧ 0 < e.gainLoss)).map (fun e => e.gainLoss)).sum
  let ltcl := ((fyEntries.filter (fun e =>
    e.classification = .LONG_TERM ∧ e.gainLoss < 0)).map (fun e => |e.gainLoss|)).sum
  { stcg := stcg, stcl := stcl, ltcg := ltcg, ltcl := ltcl,
    netShortTerm := stcg - stcl, netLongTerm := ltcg - ltcl,
    entries := fyEntries }

/-- Concrete trade list: oversell then re-buy. Total sold equals total ever
bought, yet a lot survives, because the oversold excess is dropped. -/
def oversellRebuyTrades : List TradeRecord :=
  [⟨"T1", "S", "I", "NSE", 0, .buy, 5, 10⟩,
   ⟨"T2", "S", "I", "NSE", 1, .sell, 10, 10⟩,
   ⟨"T3", "S", "I", "NSE", 2, .buy, 5, 10⟩]

/-- Concrete trade list: two buys then a sell of exactly the first lot's
quantity. -/
def fifoExactSellTrades : List TradeRecord :=
  [⟨"T1", "S", "I", "NSE", 0, .buy, 5, 10⟩,
   ⟨"T2", "S", "I", "NSE", 1, .buy, 3, 20⟩,
   ⟨"T3", "S", "I", "NSE", 2, .sell, 5, 30⟩]

/-- Concrete trade list: the symbol of the first trade contains the key
separator `:`, so the two distinct (symbol, venue) pairs collide on the same
grouping key. -/
def venueCollisionTrades : List TradeRecord :=
  [⟨"T1", "A:B", "", "C", 0, .buy, 5, 10⟩,
   ⟨"T2", "A", "", "B:C", 1, .sell, 5, 30⟩]

/-- Concrete trade list: the same symbol traded on two venues, with a sell
on only one of them. No symbol contains the key separator. -/
def venueSplitTrades : List TradeRecord :=
  [⟨"T1", "A", "I", "NSE", 0, .buy, 5, 10⟩,
   ⟨"T2", "A", "I", "BSE", 0, .buy, 3, 10⟩,
   ⟨"T3", "A", "I", "NSE", 1, .sell, 2, 12⟩]

/-- Concrete trade list: two buys of the same (symbol, venue), one long-term
(day 0) and one short-term (day 400) as of day 500. -/
def straddleTrades : List TradeRecord :=
  [⟨"T1", "A", "I", "NSE", 0, .buy, 2, 10⟩,
   ⟨"T2", "A", "I", "NSE", 400, .buy, 1, 1000⟩]

/-- The holding produced by the FIFO engine from `straddleTrades` at
now = 500. -/
def straddleHolding : Holding :=
  { symbol := "A", isin := "I", exchange := "NSE",
    lots := [⟨2, 0, 10⟩, ⟨1, 400, 1000⟩], totalQuantity := 3,
    avgPurchasePrice := 340, oldestPurchaseDate := 0,
    newestPurchaseDate := 400, classification := .LONG_TERM }

/-- Concrete trade list: one buy fully sold later. -/
def fullySoldTrades : List TradeRecord :=
  [⟨"T1", "S", "I", "NSE", 0, .buy, 5, 10⟩,
   ⟨"T2", "S", "I", "NSE", 1, .sell, 5, 12⟩]

theorem long_eq_short_false :
    (Classification.LONG_TERM = Classification.SHORT_TERM) = False :=
  eq_false (by intro h; cases h)

theorem short_eq_long_false :
    (Classification.SHORT_TERM = Classification.LONG_TERM) = False :=
  eq_false (by intro h; cases h)

/-! ### Helper lemmas about lot arithmetic -/

/-- Concrete holding with populated P&L fields, used to exercise the
price-overlay frame property. -/
def keepHolding : Holding :=
  { symbol := "KEEP", isin := "I", exchange := "NSE",
    lots := [⟨5, 0, 10⟩], totalQuantity := 5, avgPurchasePrice := 10,
    oldestPurchaseDate := 0, newestPurchaseDate := 0,
    classification := .LONG_TERM, currentPrice := some 9,
    pnl := some (-5), pnlPercent := some (-10), isLoss := some true,
    stQuantity := some 0, ltQuantity := some 5, stAvgPrice := some 0,
    ltAvgPrice := some 10, stPnl := some 0, ltPnl := some (-5) }

/-- Concrete holding with losing lots on both sides of the 365-day
boundary. -/
def bothSidesHolding : Holding :=
  { symbol := "X", isin := "I", exchange := "NSE", lots := [],
    totalQuantity := 3, avgPurchasePrice := 10, oldestPurchaseDate := 0,
    newestPurchaseDate := 0, classification := .LONG_TERM,
    stQuantity := some 2, ltQuantity := some 1, stPnl := some (-5),
    ltPnl := some (-3) }

instance : IsTotal TradeRecord (fun a b => a.tradeDate ≤ b.tradeDate) :=
  ⟨fun a b => le_total a.tradeDate b.tradeDate⟩

instance : IsTrans TradeRecord (fun a b => a.tradeDate ≤ b.tradeDate) :=
  ⟨fun _ _ _ hab hbc => le_trans hab hbc⟩

theorem ne_empty_and_eq_empty (s : String) : (s ≠ "" ∧ s = "") = False :=
  eq_false (fun h => h.1 h.2)

/-! ### Trade-type scrutiny helpers -/

theorem buy_eq_sell_false : (TradeType.buy = TradeType.sell) = False :=
  eq_false (by intro h; cases h)

theorem sell_eq_buy_false : (TradeType.sell = TradeType.buy) = False :=
  eq_false (by intro h; cases h)

theorem buy_eq_buy_true : (TradeType.buy = TradeType.buy) = True := eq_true rfl

theorem sell_eq_sell_true : (TradeType.sell = TradeType.sell) = True := eq_true rfl


theorem calculateTotalQuantity_nil : calculateTotalQuantity [] = 0 := rfl

theorem calculateTotalQuantity_cons (l : HoldingLot) (ls : List HoldingLot) :
    calculateTotalQuantity (l :: ls) = l.quantity + calculateTotalQuantity ls := by
  simp [calculateTotalQuantity]

theorem calculateTotalQuantity_nonneg (lots : List HoldingLot)
    (h : ∀ l ∈ lots, 0 ≤ l.quantity) : 0 ≤ calculateTotalQuantity lots := by
  induction lots with
  | nil => simp [calculateTotalQuantity_nil]
  | cons a as ih =>
    rw [calculateTotalQuantity_cons]
    have ha := h a (List.mem_cons_self a as)
    have := ih (fun l hl => h l (List.mem_cons_of_mem a hl))
    linarith

theorem calculateTotalQuantity_pos (lots : List HoldingLot)
    (h : ∀ l ∈ lots, 0 < l.quantity) (hne : lots ≠ []) :
    0 < calculateTotalQuantity lots := by
  cases lots with
  | nil => exact absurd rfl hne
  | cons a as =>
    rw [calculateTotalQuantity_cons]
    have ha := h a (List.mem_cons_self a as)
    have : 0 ≤ calculateTotalQuantity as :=
      calculateTotalQuantity_nonneg as (fun l hl => le_of_lt (h l (List.mem_cons_of_mem a hl)))
    linarith

theorem removeEmptyLots_pos (lots : List HoldingLot) :
    ∀ l ∈ removeEmptyLots lots, 0 < l.quantity := by
  intro l hl
  have := List.of_mem_filter hl
  exact of_decide_eq_true this

theorem removeEmptyLots_quantity (lots : List HoldingLot)
    (h : ∀ l ∈ lots, 0 ≤ l.quantity) :
    calculateTotalQuantity (removeEmptyLots lots) = calculateTotalQuantity lots := by
  induction lots with
  | nil => rfl
  | cons a as ih =>
    have ha := h a (List.mem_cons_self a as)
    have ih' := ih (fun l hl => h l (List.mem_cons_of_mem a hl))
    by_cases hq : 0 < a.quantity
    · rw [calculateTotalQuantity_cons]
      simp only [removeEmptyLots, List.filter_cons, decide_eq_true_eq, if_pos hq] at *
      rw [calculateTotalQuantity_cons, ih']
    · have hz : a.quantity = 0 := le_antisymm (not_lt.mp hq) ha
      rw [calculateTotalQuantity_cons, hz]
      simp only [removeEmptyLots, List.filter_cons, decide_eq_true_eq, if_neg hq] at *
      rw [ih']
      ring

theorem pos_lots_empty_iff (lots : List HoldingLot)
    (h : ∀ l ∈ lots, 0 < l.quantity) :
    lots = [] ↔ calculateTotalQuantity lots = 0 := by
  constructor
  · intro he; subst he; rfl
  · intro hz
    cases lots with
    | nil => rfl
    | cons a as =>
      exact absurd hz (ne_of_gt (calculateTotalQuantity_pos (a :: as) h (by simp)))

/-! ### Core facts about the FIFO sell walk -/

theorem applyFifoSellGo_spec (lots : List HoldingLot) : ∀ r : Rat,
    (∀ l ∈ lots, 0 ≤ l.quantity) → 0 ≤ r →
    (∀ l ∈ (applyFifoSellGo lots r).1, 0 ≤ l.quantity) ∧
    calculateTotalQuantity (applyFifoSellGo lots r).2.1
      = min r (calculateTotalQuantity lots) ∧
    (applyFifoSellGo lots r).2.2 = r - min r (calculateTotalQuantity lots) ∧
    calculateTotalQuantity (applyFifoSellGo lots r).1
      = calculateTotalQuantity lots - min r (calculateTotalQuantity lots) := by
  induction lots with
  | nil =>
    intro r _ hr
    simp [applyFifoSellGo, calculateTotalQuantity_nil, min_eq_right hr]
  | cons lot rest ih =>
    intro r hl hr
    have hlot : 0 ≤ lot.quantity := hl lot (List.mem_cons_self lot rest)
    have hrest : ∀ l ∈ rest, 0 ≤ l.quantity :=
      fun l hm => hl l (List.mem_cons_of_mem lot hm)
    have hrestq : 0 ≤ calculateTotalQuantity rest := calculateTotalQuantity_nonneg rest hrest
    by_cases hpos : 0 < r
    · by_cases hle : lot.quantity ≤ r
      · have ih' := ih (r - lot.quantity) hrest (by linarith)
        simp only [applyFifoSellGo, if_pos hpos, if_pos hle]
        obtain ⟨ih1, ih2, ih3, ih4⟩ := ih'
        refine ⟨?_, ?_, ?_, ?_⟩
        · intro l hm
          rcases List.mem_cons.mp hm with h1 | h2
          · rw [h1]
          · exact ih1 l h2
        · rw [calculateTotalQuantity_cons, ih2, calculateTotalQuantity_cons]
          have : min (r - lot.quantity) (calculateTotalQuantity rest) + lot.quantity
              = min r (lot.quantity + calculateTotalQuantity rest) := by
            rw [← min_add_add_right]
            congr 1 <;> ring
          linarith [this]
        · rw [ih3, calculateTotalQuantity_cons]
          have : min (r - lot.quantity) (calculateTotalQuantity rest) + lot.quantity
              = min r (lot.quantity + calculateTotalQuantity rest) := by
            rw [← min_add_add_right]
            congr 1 <;> ring
          linarith [this]
        · rw [calculateTotalQuantity_cons, calculateTotalQuantity_cons, ih4]
          have : min (r - lot.quantity) (calculateTotalQuantity rest) + lot.quantity
              = min r (lot.quantity + calculateTotalQuantity rest) := by
            rw [← min_add_add_right]
            congr 1 <;> ring
          have hq0 : (⟨0, lot.purchaseDate, lot.purchasePrice⟩ : HoldingLot).quantity = 0 := rfl
          rw [hq0]
          linarith [this]
      · push_neg at hle
        simp only [applyFifoSellGo, if_pos hpos, if_neg (not_le.mpr hle)]
        have hmin : min r (calculateTotalQuantity (lot :: rest)) = r := by
          rw [calculateTotalQuantity_cons]
          exact min_eq_left (by linarith)
        refine ⟨?_, ?_, ?_, ?_⟩
        · intro l hm
          rcases List.mem_cons.mp hm with h1 | h2
          · rw [h1]; simp; linarith
          · exact hrest l h2
        · rw [hmin]
          simp [calculateTotalQuantity_cons, calculateTotalQuantity_nil]
        · rw [hmin]; ring
        · rw [hmin, calculateTotalQuantity_cons, calculateTotalQuantity_cons]
          ring
    · have hr0 : r = 0 := le_antisymm (not_lt.mp hpos) hr
      subst hr0
      have hmin : min (0 : Rat) (calculateTotalQuantity (lot :: rest)) = 0 :=
        min_eq_left (calculateTotalQuantity_nonneg _ hl)
      simp only [applyFifoSellGo, lt_self_iff_false, if_false, hmin]
      exact ⟨hl, by simp [calculateTotalQuantity_nil], by ring, by ring⟩

/-! ### Shape lemmas for one processed trade -/

theorem processTrade_buy (s : HoldingAccumulator × List RealizedGainEntry)
    (t : TradeRecord) (h : t.tradeType = .buy) :
    (processTrade s t).1.lots
        = s.1.lots ++ [⟨t.quantity, t.tradeDate, t.price⟩] ∧
    (processTrade s t).2 = s.2 ∧
    (processTrade s t).1.symbol = s.1.symbol ∧
    (processTrade s t).1.exchange = s.1.exchange := by
  by_cases hi : t.isin ≠ "" ∧ s.1.isin = "" <;>
    simp [processTrade, h, hi]

theorem processTrade_sell (s : HoldingAccumulator × List RealizedGainEntry)
    (t : TradeRecord) (h : t.tradeType = .sell) :
    (processTrade s t).1.lots
        = removeEmptyLots (applyFifoSell s.1.lots t.quantity).1 ∧
    (processTrade s t).2
        = s.2 ++ realizedEntriesForSell t (applyFifoSell s.1.lots t.quantity).2.1 ∧
    (processTrade s t).1.symbol = s.1.symbol ∧
    (processTrade s t).1.exchange = s.1.exchange := by
  by_cases hi : t.isin ≠ "" ∧ s.1.isin = "" <;>
    simp [processTrade, h, hi]

theorem foldl_processTrade_meta (ts : List TradeRecord) :
    ∀ s : HoldingAccumulator × List RealizedGainEntry,
    (ts.foldl processTrade s).1.symbol = s.1.symbol ∧
    (ts.foldl processTrade s).1.exchange = s.1.exchange := by
  induction ts with
  | nil => intro s; exact ⟨rfl, rfl⟩
  | cons t ts ih =>
    intro s
    rw [List.foldl_cons]
    obtain ⟨ih1, ih2⟩ := ih (processTrade s t)
    cases h : t.tradeType with
    | buy =>
      obtain ⟨_, _, h3, h4⟩ := processTrade_buy s t h
      exact ⟨ih1.trans h3, ih2.trans h4⟩
    | sell =>
      obtain ⟨_, _, h3, h4⟩ := processTrade_sell s t h
      exact ⟨ih1.trans h3, ih2.trans h4⟩

theorem foldl_processTrade_pos (ts : List TradeRecord) :
    ∀ s : HoldingAccumulator × List RealizedGainEntry,
    (∀ l ∈ s.1.lots, 0 < l.quantity) →
    (∀ t ∈ ts, 0 < t.quantity) →
    ∀ l ∈ (ts.foldl processTrade s).1.lots, 0 < l.quantity := by
  induction ts with
  | nil => intro s hs _; exact hs
  | cons t ts ih =>
    intro s hs hts
    rw [List.foldl_cons]
    refine ih (processTrade s t) ?_ (fun u hu => hts u (List.mem_cons_of_mem t hu))
    cases h : t.tradeType with
    | buy =>
      obtain ⟨h1, _, _, _⟩ := processTrade_buy s t h
      rw [h1]
      intro l hl
      rcases List.mem_append.mp hl with hm | hm
      · exact hs l hm
      · rcases List.mem_singleton.mp hm with rfl
        exact hts t (List.mem_cons_self t ts)
    | sell =>
      obtain ⟨h1, _, _, _⟩ := processTrade_sell s t h
      rw [h1]
      exact removeEmptyLots_pos _

theorem foldl_processTrade_entry_classification (ts : List TradeRecord) :
    ∀ s : HoldingAccumulator × List RealizedGainEntry,
    (∀ e ∈ s.2, e.classification = classifyHolding e.sellDate e.purchaseDate) →
    ∀ e ∈ (ts.foldl processTrade s).2,
      e.classification = classifyHolding e.sellDate e.purchaseDate := by
  induction ts with
  | nil => intro s hs; exact hs
  | cons t ts ih =>
    intro s hs
    rw [List.foldl_cons]
    refine ih (processTrade s t) ?_
    cases h : t.tradeType with
    | buy =>
      obtain ⟨_, h2, _, _⟩ := processTrade_buy s t h
      rw [h2]; exact hs
    | sell =>
      obtain ⟨_, h2, _, _⟩ := processTrade_sell s t h
      rw [h2]
      intro e he
      rcases List.mem_append.mp he with hm | hm
      · exact hs e hm
      · simp only [realizedEntriesForSell, List.mem_map] at hm
        obtain ⟨c, _, rfl⟩ := hm
        simp [classifyHolding, differenceInDays]

/-! ### Grouping machinery -/

theorem insertTrade_lookup_self (gs : List (String × List TradeRecord))
    (k : String) (t : TradeRecord) :
    (insertTrade gs k t).lookup k = some (((gs.lookup k).getD []) ++ [t]) := by
  induction gs with
  | nil => simp [insertTrade, List.lookup]
  | cons p rest ih =>
    obtain ⟨k', ts⟩ := p
    by_cases h : k' = k
    · subst h
      simp [insertTrade, List.lookup]
    · simp only [insertTrade, if_neg h]
      have hne : (k == k') = false := by
        simp [beq_eq_false_iff_ne]
        exact fun hc => h hc.symm
      simp [List.lookup, hne, ih]

theorem insertTrade_lookup_ne (gs : List (String × List TradeRecord))
    (k k' : String) (t : TradeRecord) (h : k' ≠ k) :
    (insertTrade gs k t).lookup k' = gs.lookup k' := by
  induction gs with
  | nil =>
    have hbeq : (k' == k) = false := by simp [beq_eq_false_iff_ne, h]
    simp [insertTrade, List.lookup, hbeq]
  | cons p rest ih =>
    obtain ⟨k'', ts⟩ := p
    by_cases hk : k'' = k
    · subst hk
      have hne : (k' == k'') = false := by simp [beq_eq_false_iff_ne, h]
      simp [insertTrade, List.lookup, hne]
    · simp only [insertTrade, if_neg hk]
      by_cases he : k' = k''
      · subst he
        simp [List.lookup]
      · have hne : (k' == k'') = false := by simp [beq_eq_false_iff_ne, he]
        simp [List.lookup, hne, ih]

theorem foldl_insertTrade_lookup (ts : List TradeRecord) :
    ∀ (gs : List (String × List TradeRecord)) (done : List TradeRecord),
    (∀ k, ((gs.lookup k).getD []) = done.filter (fun u => tradeKey u = k)) →
    ∀ k, (((ts.foldl (fun gs u => insertTrade gs (tradeKey u) u) gs).lookup k).getD [])
      = (done ++ ts).filter (fun u => tradeKey u = k) := by
  induction ts with
  | nil => intro gs done hinv k; simpa using hinv k
  | cons t ts ih =>
    intro gs done hinv k
    rw [List.foldl_cons]
    have step : ∀ k', (((insertTrade gs (tradeKey t) t).lookup k').getD [])
        = (done ++ [t]).filter (fun u => tradeKey u = k') := by
      intro k'
      by_cases hk : k' = tradeKey t
      · subst hk
        rw [insertTrade_lookup_self]
        simp only [Option.getD_some, List.filter_append, hinv]
        simp
      · rw [insertTrade_lookup_ne gs (tradeKey t) k' t hk]
        rw [hinv k']
        have hne2 : tradeKey t ≠ k' := fun hc => hk hc.symm
        have : List.filter (fun u => decide (tradeKey u = k')) [t] = [] := by
          simp [List.filter, hne2]
        simp [List.filter_append, this]
    have := ih (insertTrade gs (tradeKey t) t) (done ++ [t]) step k
    simpa using this

theorem groupTradesByHolding_lookup (trades : List TradeRecord) (k : String) :
    (((groupTradesByHolding trades).lookup k).getD [])
      = trades.filter (fun u => tradeKey u = k) := by
  have := foldl_insertTrade_lookup trades [] []
    (by intro k'; simp [List.lookup]) k
  simpa [groupTradesByHolding, tradeKey] using this

theorem insertTrade_keys (gs : List (String × List TradeRecord)) (k : String)
    (t : TradeRecord) :
    (insertTrade gs k t).map Prod.fst
      = if k ∈ gs.map Prod.fst then gs.map Prod.fst else gs.map Prod.fst ++ [k] := by
  induction gs with
  | nil => simp [insertTrade]
  | cons p rest ih =>
    obtain ⟨k', ts⟩ := p
    by_cases h : k' = k
    · subst h
      simp [insertTrade]
    · have hne : k ≠ k' := fun hc => h hc.symm
      by_cases hm : k ∈ rest.map Prod.fst
      · simp [insertTrade, if_neg h, ih, hm, hne]
      · simp [insertTrade, if_neg h, ih, hm, hne]

theorem foldl_insertTrade_keys_nodup (ts : List TradeRecord) :
    ∀ gs : List (String × List TradeRecord),
    (gs.map Prod.fst).Nodup →
    ((ts.foldl (fun gs u => insertTrade gs (tradeKey u) u) gs).map Prod.fst).Nodup := by
  induction ts with
  | nil => intro gs h; exact h
  | cons t ts ih =>
    intro gs h
    rw [List.foldl_cons]
    refine ih _ ?_
    rw [insertTrade_keys]
    by_cases hm : tradeKey t ∈ gs.map Prod.fst
    · simpa [hm] using h
    · simp only [if_neg hm]
      exact List.Nodup.append h (List.nodup_singleton _) (by simpa using hm)

theorem groupTradesByHolding_keys_nodup (trades : List TradeRecord) :
    ((groupTradesByHolding trades).map Prod.fst).Nodup := by
  have := foldl_insertTrade_keys_nodup trades [] (by simp)
  simpa [groupTradesByHolding, tradeKey] using this

theorem lookup_of_mem_nodup (gs : List (String × List TradeRecord))
    (p : String × List TradeRecord)
    (hnd : (gs.map Prod.fst).Nodup) (hm : p ∈ gs) :
    gs.lookup p.1 = some p.2 := by
  induction gs with
  | nil => cases hm
  | cons q rest ih =>
    have hnd' := hnd
    rw [List.map_cons, List.nodup_cons] at hnd'
    obtain ⟨hq, hrest⟩ := hnd'
    rcases List.mem_cons.mp hm with rfl | hm'
    · simp [List.lookup]
    · have hne : p.1 ≠ q.1 := by
        intro hc
        exact hq (hc ▸ List.mem_map_of_mem Prod.fst hm')
      have hbeq : (p.1 == q.1) = false := by simp [beq_eq_false_iff_ne, hne]
      obtain ⟨k', ts'⟩ := q
      simp only [List.lookup, hbeq]
      exact ih hrest hm'

theorem mem_groupTradesByHolding (trades : List TradeRecord)
    (p : String × List TradeRecord) (hm : p ∈ groupTradesByHolding trades) :
    p.2 = trades.filter (fun u => tradeKey u = p.1) := by
  have h1 := lookup_of_mem_nodup _ p (groupTradesByHolding_keys_nodup trades) hm
  have h2 := groupTradesByHolding_lookup trades p.1
  rw [h1] at h2
  simpa using h2

/-! ### Characterizing the engine's outputs -/

theorem mem_sortTradesChronologically (trades : List TradeRecord) (t : TradeRecord) :
    t ∈ sortTradesChronologically trades ↔ t ∈ trades :=
  (List.perm_insertionSort _ trades).mem_iff

theorem processTradesForHolding_eq_nil (trades : List TradeRecord)
    (hs : sortTradesChronologically trades = []) :
    processTradesForHolding trades = (none, []) := by
  unfold processTradesForHolding
  rw [hs]

theorem processTradesForHolding_eq_cons (trades : List TradeRecord)
    (f : TradeRecord) (r : List TradeRecord)
    (hs : sortTradesChronologically trades = f :: r) :
    processTradesForHolding trades =
      (let result := (f :: r).foldl processTrade
          ({ symbol := f.symbol, isin := f.isin, exchange := f.exchange,
             lots := [] }, []);
       if result.1.lots.isEmpty then (none, result.2)
       else (some result.1, result.2)) := by
  unfold processTradesForHolding
  rw [hs]

theorem processTradesForHolding_some_pos (trades : List TradeRecord)
    (acc : HoldingAccumulator) (hpos : ∀ t ∈ trades, 0 < t.quantity)
    (h : (processTradesForHolding trades).1 = some acc) :
    acc.lots ≠ [] ∧ ∀ l ∈ acc.lots, 0 < l.quantity := by
  cases hs : sortTradesChronologically trades with
  | nil => rw [processTradesForHolding_eq_nil trades hs] at h; cases h
  | cons f r =>
    rw [processTradesForHolding_eq_cons trades f r hs] at h
    simp only at h
    by_cases he : ((f :: r).foldl processTrade
        ({ symbol := f.symbol, isin := f.isin, exchange := f.exchange,
           lots := [] }, [])).1.lots.isEmpty
    · rw [if_pos he] at h; cases h
    · rw [if_neg he] at h
      have hacc : acc = ((f :: r).foldl processTrade
          ({ symbol := f.symbol, isin := f.isin, exchange := f.exchange,
             lots := [] }, [])).1 := by
        cases h; rfl
      constructor
      · rw [hacc]
        intro hc
        rw [hc] at he
        exact he rfl
      · rw [hacc]
        refine foldl_processTrade_pos (f :: r) _ (by intro l hl; cases hl) ?_
        intro t ht
        exact hpos t ((mem_sortTradesChronologically trades t).mp (hs ▸ ht))

theorem mem_calculateHoldings (now fyStart : Int) (trades : List TradeRecord)
    (h : Holding) :
    h ∈ calculateHoldings now fyStart trades ↔
    ∃ p ∈ groupTradesByHolding trades, ∃ acc,
      (processTradesForHolding p.2).1 = some acc ∧ h = mkHolding now acc := by
  unfold calculateHoldings analyzePortfolio
  cases trades with
  | nil => simp [groupTradesByHolding]
  | cons t ts =>
    simp only [List.isEmpty_cons, Bool.false_eq_true, if_false]
    rw [(List.perm_insertionSort (fun a b : Holding => a.symbol ≤ b.symbol) _).mem_iff]
    simp only [List.filterMap_map, List.mem_filterMap, List.mem_map, Function.comp,
      Option.map_eq_some']
    constructor
    · rintro ⟨p, hp, acc, hacc, heq⟩
      exact ⟨p, hp, acc, hacc, heq.symm⟩
    · rintro ⟨p, hp, acc, hacc, heq⟩
      exact ⟨p, hp, acc, hacc, heq.symm⟩

theorem processTradesForHolding_classification (trades : List TradeRecord) :
    ∀ e ∈ (processTradesForHolding trades).2,
      e.classification = classifyHolding e.sellDate e.purchaseDate := by
  cases hs : sortTradesChronologically trades with
  | nil => rw [processTradesForHolding_eq_nil trades hs]; intro e he; cases he
  | cons f r =>
    rw [processTradesForHolding_eq_cons trades f r hs]
    simp only
    intro e he
    have he' : e ∈ ((f :: r).foldl processTrade
        ({ symbol := f.symbol, isin := f.isin, exchange := f.exchange,
           lots := [] }, [])).2 := by
      revert he
      split_ifs <;> exact id
    exact foldl_processTrade_entry_classification (f :: r) _
      (by intro x hx; cases hx) e he'

/-! ### Quantity bookkeeping for buys and sells -/

theorem buyQuantity_nil : buyQuantity [] = 0 := rfl

theorem sellQuantity_nil : sellQuantity [] = 0 := rfl

theorem buyQuantity_cons (t : TradeRecord) (ts : List TradeRecord) :
    buyQuantity (t :: ts)
      = (if t.tradeType = .buy then t.quantity else 0) + buyQuantity ts := by
  unfold buyQuantity
  by_cases h : t.tradeType = .buy <;> simp [List.filter_cons, h]

theorem sellQuantity_cons (t : TradeRecord) (ts : List TradeRecord) :
    sellQuantity (t :: ts)
      = (if t.tradeType = .sell then t.quantity else 0) + sellQuantity ts := by
  unfold sellQuantity
  by_cases h : t.tradeType = .sell <;> simp [List.filter_cons, h]

theorem foldl_processTrade_conserve (ts : List TradeRecord) :
    ∀ s : HoldingAccumulator × List RealizedGainEntry,
    (∀ l ∈ s.1.lots, 0 < l.quantity) →
    (∀ t ∈ ts, 0 < t.quantity) →
    (∀ p q, ts = p ++ q →
      sellQuantity p ≤ calculateTotalQuantity s.1.lots + buyQuantity p) →
    calculateTotalQuantity ((ts.foldl processTrade s).1.lots)
      = calculateTotalQuantity s.1.lots + buyQuantity ts - sellQuantity ts := by
  induction ts with
  | nil =>
    intro s _ _ _
    simp [buyQuantity_nil, sellQuantity_nil]
  | cons t ts ih =>
    intro s hpos hq hpre
    rw [List.foldl_cons]
    have hqt : 0 < t.quantity := hq t (List.mem_cons_self t ts)
    cases h : t.tradeType with
    | buy =>
      obtain ⟨h1, _, _, _⟩ := processTrade_buy s t h
      have hsum : calculateTotalQuantity (processTrade s t).1.lots
          = calculateTotalQuantity s.1.lots + t.quantity := by
        rw [h1]
        induction s.1.lots with
        | nil => simp [calculateTotalQuantity_cons, calculateTotalQuantity_nil]
        | cons a as iha =>
          rw [List.cons_append, calculateTotalQuantity_cons,
            calculateTotalQuantity_cons, iha]
          ring
      have hpos2 : ∀ l ∈ (processTrade s t).1.lots, 0 < l.quantity := by
        rw [h1]
        intro l hl
        rcases List.mem_append.mp hl with hm | hm
        · exact hpos l hm
        · rcases List.mem_singleton.mp hm with rfl
          exact hqt
      have hpre2 : ∀ p q, ts = p ++ q →
          sellQuantity p ≤ calculateTotalQuantity (processTrade s t).1.lots
            + buyQuantity p := by
        intro p q hpq
        have hstep := hpre (t :: p) q (by rw [hpq]; rfl)
        rw [sellQuantity_cons, buyQuantity_cons, h] at hstep
        simp only [reduceCtorEq, if_false, if_true, reduceIte] at hstep
        rw [hsum]
        linarith
      have hrec := ih (processTrade s t) hpos2
        (fun u hu => hq u (List.mem_cons_of_mem t hu)) hpre2
      rw [buyQuantity_cons, sellQuantity_cons, h]
      simp only [reduceCtorEq, if_false, if_true, reduceIte]
      linarith [hrec, hsum]
    | sell =>
      obtain ⟨h1, _, _, _⟩ := processTrade_sell s t h
      have hcover : t.quantity ≤ calculateTotalQuantity s.1.lots := by
        have hstep := hpre [t] ts rfl
        rw [sellQuantity_cons, buyQuantity_cons, h, sellQuantity_nil,
          buyQuantity_nil] at hstep
        simp only [reduceCtorEq, if_false, if_true, reduceIte] at hstep
        linarith
      have hnn : ∀ l ∈ s.1.lots, 0 ≤ l.quantity := fun l hl => le_of_lt (hpos l hl)
      obtain ⟨f1, _, _, f4⟩ :=
        applyFifoSellGo_spec s.1.lots t.quantity hnn (le_of_lt hqt)
      have hmin : min t.quantity (calculateTotalQuantity s.1.lots) = t.quantity :=
        min_eq_left hcover
      have hsum : calculateTotalQuantity (processTrade s t).1.lots
          = calculateTotalQuantity s.1.lots - t.quantity := by
        rw [h1]
        unfold applyFifoSell
        rw [removeEmptyLots_quantity _ f1, f4, hmin]
      have hpos2 : ∀ l ∈ (processTrade s t).1.lots, 0 < l.quantity := by
        rw [h1]
        exact removeEmptyLots_pos _
      have hpre2 : ∀ p q, ts = p ++ q →
          sellQuantity p ≤ calculateTotalQuantity (processTrade s t).1.lots
            + buyQuantity p := by
        intro p q hpq
        have hstep := hpre (t :: p) q (by rw [hpq]; rfl)
        rw [sellQuantity_cons, buyQuantity_cons, h] at hstep
        simp only [reduceCtorEq, if_false, if_true, reduceIte] at hstep
        rw [hsum]
        linarith
      have hrec := ih (processTrade s t) hpos2
        (fun u hu => hq u (List.mem_cons_of_mem t hu)) hpre2
      rw [buyQuantity_cons, sellQuantity_cons, h]
      simp only [reduceCtorEq, if_false, if_true, reduceIte]
      linarith [hrec, hsum]

theorem buyQuantity_sortTrades (trades : List TradeRecord) :
    buyQuantity (sortTradesChronologically trades) = buyQuantity trades := by
  unfold buyQuantity
  exact (((List.perm_insertionSort _ trades).filter _).map _).sum_eq

theorem sellQuantity_sortTrades (trades : List TradeRecord) :
    sellQuantity (sortTradesChronologically trades) = sellQuantity trades := by
  unfold sellQuantity
  exact (((List.perm_insertionSort _ trades).filter _).map _).sum_eq

theorem processTradesForHolding_full_consumption (trades : List TradeRecord)
    (hpos : ∀ t ∈ trades, 0 < t.quantity)
    (hpre : ∀ p q, sortTradesChronologically trades = p ++ q →
      sellQuantity p ≤ buyQuantity p)
    (heq : sellQuantity trades = buyQuantity trades) :
    (processTradesForHolding trades).1 = none := by
  cases hs : sortTradesChronologically trades with
  | nil => rw [processTradesForHolding_eq_nil trades hs]
  | cons f r =>
    rw [processTradesForHolding_eq_cons trades f r hs]
    simp only
    have hposSorted : ∀ t ∈ f :: r, 0 < t.quantity := by
      intro t ht
      exact hpos t ((mem_sortTradesChronologically trades t).mp (hs ▸ ht))
    have hconserve := foldl_processTrade_conserve (f :: r)
      ({ symbol := f.symbol, isin := f.isin, exchange := f.exchange,
         lots := [] }, [])
      (by intro l hl; cases hl) hposSorted
      (by
        intro p q hpq
        have hx := hpre p q (hs.trans hpq)
        simpa [calculateTotalQuantity_nil] using hx)
    have hbq : buyQuantity (f :: r) = buyQuantity trades := by
      rw [← hs]; exact buyQuantity_sortTrades trades
    have hsq : sellQuantity (f :: r) = sellQuantity trades := by
      rw [← hs]; exact sellQuantity_sortTrades trades
    have hzero : calculateTotalQuantity
        (((f :: r).foldl processTrade
          ({ symbol := f.symbol, isin := f.isin, exchange := f.exchange,
             lots := [] }, [])).1.lots) = 0 := by
      rw [hconserve, hbq, hsq, heq]
      simp [calculateTotalQuantity_nil]
    have hposOut := foldl_processTrade_pos (f :: r)
      ({ symbol := f.symbol, isin := f.isin, exchange := f.exchange,
         lots := [] }, [])
      (by intro l hl; cases hl) hposSorted
    have hempty := (pos_lots_empty_iff _ hposOut).mpr hzero
    rw [if_pos (by rw [hempty]; rfl)]

/-! ### Claim C3 -/

/-- C3, counterexample to the claim as stated: in `oversellRebuyTrades` the
total quantity sold (10) equals the total quantity ever bought (10) for the
single (S, NSE) group, yet the group still contributes a Holding with
totalQuantity 5, because the intermediate oversell's excess was dropped. -/
theorem c3_counterexample :
    sellQuantity oversellRebuyTrades = buyQuantity oversellRebuyTrades ∧
    (calculateHoldings 500 0 oversellRebuyTrades).map
      (fun h => (h.symbol, h.exchange, h.totalQuantity)) = [("S", "NSE", 5)] := by
  constructor
  · norm_num [sellQuantity, buyQuantity, oversellRebuyTrades, List.filter_cons,
      buy_eq_sell_false, sell_eq_buy_false, buy_eq_buy_true, sell_eq_sell_true]
  · norm_num [oversellRebuyTrades, calculateHoldings, analyzePortfolio,
      groupTradesByHolding, insertTrade, createHoldingKey,
      processTradesForHolding, sortTradesChronologically, processTrade,
      applyFifoSell, applyFifoSellGo, removeEmptyLots, realizedEntriesForSell,
      mkHolding, calculateTotalQuantity, calculateAvgPurchasePrice,
      findOldestPurchaseDate, findNewestPurchaseDate, classifyHolding,
      differenceInDays, summarizeRealizedGains, List.insertionSort,
      List.orderedInsert, List.filter_cons]

/-- C3 (amended): provided every sell is covered by the lots available at its
time (no oversell: along the chronologically sorted group trades, every
prefix sells at most what it buys), a group whose total sold equals its
total bought contributes no Holding (`processTradesForHolding` returns a
null accumulator, so `analyzePortfolio` skips the group); and universally,
every Holding returned by the engine has nonzero totalQuantity and only
strictly positive lot quantities. -/
theorem c3_full_consumption_amended (now fyStart : Int) (trades : List TradeRecord)
    (hpos : ∀ t ∈ trades, 0 < t.quantity) :
    ((∀ p q, sortTradesChronologically trades = p ++ q →
        sellQuantity p ≤ buyQuantity p) →
      sellQuantity trades = buyQuantity trades →
      (processTradesForHolding trades).1 = none) ∧
    (∀ h ∈ calculateHoldings now fyStart trades,
      h.totalQuantity ≠ 0 ∧ ∀ l ∈ h.lots, 0 < l.quantity) := by
  constructor
  · intro hpre heq
    exact processTradesForHolding_full_consumption trades hpos hpre heq
  · intro h hm
    obtain ⟨p, hp, acc, hacc, rfl⟩ := (mem_calculateHoldings now fyStart trades h).mp hm
    have hsub : ∀ t ∈ p.2, 0 < t.quantity := by
      intro t ht
      have hfilter := mem_groupTradesByHolding trades p hp
      rw [hfilter] at ht
      exact hpos t (List.mem_of_mem_filter ht)
    obtain ⟨hne, hposl⟩ := processTradesForHolding_some_pos p.2 acc hsub hacc
    refine ⟨?_, ?_⟩
    · show calculateTotalQuantity acc.lots ≠ 0
      exact ne_of_gt (calculateTotalQuantity_pos acc.lots hposl hne)
    · show ∀ l ∈ acc.lots, 0 < l.quantity
      exact hposl

/-- C3, witness: the amended theorem applied to a concrete fully-sold
group. -/
theorem c3_full_consumption_amended_witness :
    (processTradesForHolding fullySoldTrades).1 = none := by
  have hsorted : sortTradesChronologically fullySoldTrades = fullySoldTrades := by
    norm_num [sortTradesChronologically, fullySoldTrades, List.insertionSort,
      List.orderedInsert]
  refine (c3_full_consumption_amended 500 0 fullySoldTrades ?_).1 ?_ ?_
  · intro t ht
    simp only [fullySoldTrades, List.mem_cons, List.mem_singleton,
      List.not_mem_nil, or_false] at ht
    rcases ht with rfl | rfl <;> norm_num
  · intro p q hpq
    rw [hsorted] at hpq
    unfold fullySoldTrades at hpq
    cases p with
    | nil => simp [sellQuantity_nil, buyQuantity_nil]
    | cons a pa =>
      rw [List.cons_append] at hpq
      injection hpq with ha hrest
      cases pa with
      | nil =>
        subst ha
        norm_num [sellQuantity, buyQuantity, List.filter_cons,
          buy_eq_sell_false, sell_eq_buy_false, buy_eq_buy_true, sell_eq_sell_true]
      | cons b pb =>
        rw [List.cons_append] at hrest
        injection hrest with hb hrest2
        cases pb with
        | nil =>
          subst ha; subst hb
          norm_num [sellQuantity, buyQuantity, List.filter_cons,
          buy_eq_sell_false, sell_eq_buy_false, buy_eq_buy_true, sell_eq_sell_true]
        | cons c pc =>
          rw [List.cons_append] at hrest2
          cases hrest2
  · norm_num [sellQuantity, buyQuantity, fullySoldTrades, List.filter_cons,
      buy_eq_sell_false, sell_eq_buy_false, buy_eq_buy_true, sell_eq_sell_true]

/-! ### Claim C2 -/

theorem realizedEntriesForSell_quantity (t : TradeRecord) (cons : List HoldingLot) :
    ((realizedEntriesForSell t cons).map (fun e => e.quantity)).sum
      = calculateTotalQuantity cons := by
  induction cons with
  | nil => rfl
  | cons c cs ih =>
    rw [calculateTotalQuantity_cons, ← ih]
    simp [realizedEntriesForSell]

/-- C2: processing a sell against a lot list with non-negative quantities
never produces a negative lot quantity; the realized-gain entries emitted
for that one sell carry total quantity `min (sell quantity) (total held)`;
the unmatched excess is exactly the sell quantity minus that minimum (only
warned about, never turned into a synthetic or negative lot); and the
surviving total drops by exactly the matched quantity. -/
theorem c2_oversell_tolerance (lots : List HoldingLot) (trade : TradeRecord)
    (hl : ∀ l ∈ lots, 0 ≤ l.quantity) (hq : 0 ≤ trade.quantity) :
    (∀ l ∈ (applyFifoSell lots trade.quantity).1, 0 ≤ l.quantity) ∧
    ((realizedEntriesForSell trade (applyFifoSell lots trade.quantity).2.1).map
        (fun e => e.quantity)).sum
      = min trade.quantity (calculateTotalQuantity lots) ∧
    (applyFifoSell lots trade.quantity).2.2
      = trade.quantity - min trade.quantity (calculateTotalQuantity lots) ∧
    calculateTotalQuantity (applyFifoSell lots trade.quantity).1
      = calculateTotalQuantity lots
        - min trade.quantity (calculateTotalQuantity lots) := by
  obtain ⟨f1, f2, f3, f4⟩ := applyFifoSellGo_spec lots trade.quantity hl hq
  exact ⟨f1, by rw [realizedEntriesForSell_quantity]; exact f2, f3, f4⟩

/-- C2, witness: overselling 8 shares against a single 5-share lot matches
5, drops 3, and leaves no negative lot. -/
theorem c2_oversell_tolerance_witness :
    ((realizedEntriesForSell ⟨"T2", "S", "I", "NSE", 1, .sell, 8, 20⟩
        (applyFifoSell [⟨5, 0, 10⟩] (8 : Rat)).2.1).map
      (fun e => e.quantity)).sum = 5 ∧
    (applyFifoSell [⟨5, 0, 10⟩] (8 : Rat)).2.2 = 3 := by
  have h := c2_oversell_tolerance [⟨5, 0, 10⟩] ⟨"T2", "S", "I", "NSE", 1, .sell, 8, 20⟩
    (by intro l hl; simp only [List.mem_singleton] at hl; subst hl; norm_num)
    (by norm_num)
  obtain ⟨_, h2, h3, _⟩ := h
  have hmin : min ((⟨"T2", "S", "I", "NSE", 1, .sell, 8, 20⟩ : TradeRecord).quantity)
      (calculateTotalQuantity [⟨5, 0, 10⟩]) = 5 := by
    norm_num [calculateTotalQuantity, min_def]
  rw [hmin] at h2 h3
  exact ⟨h2, by rw [h3]; norm_num⟩

/-! ### Claim C5 -/

/-- C5: the holding-period classifier returns SHORT_TERM exactly when the
calendar-day difference is at most 365 (365 days is still short-term, 366
is long-term); every realized-gain entry's classification is the same rule
evaluated at its own sell date; and every returned Holding's classification
is the same rule evaluated at `now` against its oldest surviving lot. -/
theorem c5_classification_boundary :
    (∀ asOf ref : Int,
      (differenceInDays asOf ref = 365 →
        classifyHolding asOf ref = .SHORT_TERM) ∧
      (differenceInDays asOf ref = 366 →
        classifyHolding asOf ref = .LONG_TERM) ∧
      (classifyHolding asOf ref = .SHORT_TERM ↔
        differenceInDays asOf ref ≤ 365)) ∧
    (∀ trades : List TradeRecord, ∀ e ∈ (processTradesForHolding trades).2,
      e.classification = classifyHolding e.sellDate e.purchaseDate) ∧
    (∀ (now fyStart : Int) (trades : List TradeRecord),
      ∀ h ∈ calculateHoldings now fyStart trades,
        h.classification = classifyHolding now h.oldestPurchaseDate) := by
  refine ⟨?_, ?_, ?_⟩
  · intro asOf ref
    refine ⟨?_, ?_, ?_⟩
    · intro h
      simp [classifyHolding, h]
    · intro h
      norm_num [classifyHolding, h]
    · by_cases hle : differenceInDays asOf ref ≤ 365
      · simp [classifyHolding, hle]
      · simp [classifyHolding, hle, long_eq_short_false]
  · intro trades e he
    exact processTradesForHolding_classification trades e he
  · intro now fyStart trades h hm
    obtain ⟨p, hp, acc, hacc, rfl⟩ :=
      (mem_calculateHoldings now fyStart trades h).mp hm
    rfl

/-- C5, witness: the boundary at concrete dates 365 and 366 days apart. -/
theorem c5_classification_boundary_witness :
    classifyHolding 365 0 = .SHORT_TERM ∧ classifyHolding 366 0 = .LONG_TERM :=
  ⟨(c5_classification_boundary.1 365 0).1 (by norm_num [differenceInDays]),
   (c5_classification_boundary.1 366 0).2.1 (by norm_num [differenceInDays])⟩

/-! ### Claim C7 -/

theorem overlayHolding_no_quote (now : Int) (quotes : List (String × NseQuote))
    (h : Holding) (hl : quotes.lookup h.symbol = none) :
    overlayHolding now quotes h = h := by
  unfold overlayHolding
  rw [hl]

/-- C7: the price overlay is positionally a map; a holding whose symbol has
no quote is returned unchanged (every field preserved, including previously
populated P&L fields), and a holding with a quote is replaced by exactly
the overlay of that quote. -/
theorem c7_no_quote_unchanged (now : Int) (quotes : List (String × NseQuote))
    (holdings : List Holding) :
    (updateHoldingsWithPrices now quotes holdings).length = holdings.length ∧
    (∀ (i : Nat) (h : Holding), holdings[i]? = some h →
      (quotes.lookup h.symbol = none →
        (updateHoldingsWithPrices now quotes holdings)[i]? = some h) ∧
      (∀ q, quotes.lookup h.symbol = some q →
        (updateHoldingsWithPrices now quotes holdings)[i]?
          = some (overlayHolding now quotes h))) := by
  constructor
  · exact List.length_map _ _
  · intro i h hi
    have hmap : (updateHoldingsWithPrices now quotes holdings)[i]?
        = (holdings[i]?).map (overlayHolding now quotes) := by
      unfold updateHoldingsWithPrices
      exact List.getElem?_map _ _ _
    constructor
    · intro hnone
      rw [hmap, hi]
      show some (overlayHolding now quotes h) = some h
      rw [overlayHolding_no_quote now quotes h hnone]
    · intro q _
      rw [hmap, hi]
      rfl

/-- C7, witness: a holding with populated P&L fields and no quote for its
symbol passes through the overlay untouched. -/
theorem c7_no_quote_unchanged_witness :
    (updateHoldingsWithPrices 500 [("OTHER", ⟨100, 1, 1⟩)] [keepHolding])[0]?
      = some keepHolding := by
  refine ((c7_no_quote_unchanged 500 [("OTHER", ⟨100, 1, 1⟩)] [keepHolding]).2
    0 keepHolding rfl).1 ?_
  rfl

/-! ### Claim C8 -/

theorem isStclOpportunity_iff (h : Holding) :
    isStclOpportunity h = true ↔
      ((∃ q, h.stQuantity = some q ∧ 0 < q) ∧
       (∃ p, h.stPnl = some p ∧ p < 0)) := by
  unfold isStclOpportunity
  cases h.stQuantity <;> cases h.stPnl <;> simp

theorem isLtclOpportunity_iff (h : Holding) :
    isLtclOpportunity h = true ↔
      ((∃ q, h.ltQuantity = some q ∧ 0 < q) ∧
       (∃ p, h.ltPnl = some p ∧ p < 0)) := by
  unfold isLtclOpportunity
  cases h.ltQuantity <;> cases h.ltPnl <;> simp

/-- C8: a holding is selected as a short-term-loss opportunity exactly when
its short-term quantity is populated and positive and its short-term P&L is
populated and negative; symmetrically for long-term; and a holding meeting
both conditions appears in both derived lists simultaneously. -/
theorem c8_opportunity_selection (holdings : List Holding) (h : Holding) :
    (h ∈ stclOpportunities holdings ↔
      h ∈ holdings ∧ (∃ q, h.stQuantity = some q ∧ 0 < q) ∧
        (∃ p, h.stPnl = some p ∧ p < 0)) ∧
    (h ∈ ltclOpportunities holdings ↔
      h ∈ holdings ∧ (∃ q, h.ltQuantity = some q ∧ 0 < q) ∧
        (∃ p, h.ltPnl = some p ∧ p < 0)) ∧
    (h ∈ holdings →
      (∃ q, h.stQuantity = some q ∧ 0 < q) →
      (∃ p, h.stPnl = some p ∧ p < 0) →
      (∃ q, h.ltQuantity = some q ∧ 0 < q) →
      (∃ p, h.ltPnl = some p ∧ p < 0) →
      h ∈ stclOpportunities holdings ∧ h ∈ ltclOpportunities holdings) := by
  have hst : h ∈ stclOpportunities holdings ↔
      h ∈ holdings ∧ (∃ q, h.stQuantity = some q ∧ 0 < q) ∧
        (∃ p, h.stPnl = some p ∧ p < 0) := by
    unfold stclOpportunities
    rw [List.mem_filter, isStclOpportunity_iff]
  have hlt : h ∈ ltclOpportunities holdings ↔
      h ∈ holdings ∧ (∃ q, h.ltQuantity = some q ∧ 0 < q) ∧
        (∃ p, h.ltPnl = some p ∧ p < 0) := by
    unfold ltclOpportunities
    rw [List.mem_filter, isLtclOpportunity_iff]
  refine ⟨hst, hlt, ?_⟩
  intro hm h1 h2 h3 h4
  exact ⟨hst.mpr ⟨hm, h1, h2⟩, hlt.mpr ⟨hm, h3, h4⟩⟩

/-- C8, witness: a holding with losing lots on both sides of the boundary
is in both opportunity lists. -/
theorem c8_opportunity_selection_witness :
    bothSidesHolding ∈ stclOpportunities [bothSidesHolding] ∧
    bothSidesHolding ∈ ltclOpportunities [bothSidesHolding] := by
  refine (c8_opportunity_selection _ _).2.2 (List.mem_singleton.mpr rfl)
    ⟨2, rfl, by norm_num⟩ ⟨-5, rfl, by norm_num⟩
    ⟨1, rfl, by norm_num⟩ ⟨-3, rfl, by norm_num⟩

/-! ### Claim C4 -/

theorem subset_seenAfter (xs : List TradeRecord) :
    ∀ (seen : List String) (a : String), a ∈ seen → a ∈ seenAfter seen xs := by
  induction xs with
  | nil => intro seen a h; exact h
  | cons x xs ih =>
    intro seen a h
    by_cases hx : x.tradeId ∈ seen
    · simp only [seenAfter, if_pos hx]
      exact ih seen a h
    · simp only [seenAfter, if_neg hx]
      exact ih _ a (List.mem_cons_of_mem _ h)

theorem mem_tradeId_seenAfter (xs : List TradeRecord) :
    ∀ (seen : List String) (t : TradeRecord), t ∈ xs →
    t.tradeId ∈ seenAfter seen xs := by
  induction xs with
  | nil => intro seen t ht; cases ht
  | cons x xs ih =>
    intro seen t ht
    by_cases hx : x.tradeId ∈ seen
    · simp only [seenAfter, if_pos hx]
      rcases List.mem_cons.mp ht with rfl | hm
      · exact subset_seenAfter xs seen t.tradeId hx
      · exact ih seen t hm
    · simp only [seenAfter, if_neg hx]
      rcases List.mem_cons.mp ht with rfl | hm
      · exact subset_seenAfter xs _ t.tradeId (List.mem_cons_self _ _)
      · exact ih _ t hm

theorem dedupeByIdAux_append (xs : List TradeRecord) :
    ∀ (seen : List String) (ys : List TradeRecord),
    dedupeByIdAux seen (xs ++ ys)
      = dedupeByIdAux seen xs ++ dedupeByIdAux (seenAfter seen xs) ys := by
  induction xs with
  | nil => intro seen ys; rfl
  | cons x xs ih =>
    intro seen ys
    by_cases hx : x.tradeId ∈ seen
    · simp only [List.cons_append, dedupeByIdAux, seenAfter, if_pos hx]
      exact ih seen ys
    · simp only [List.cons_append, dedupeByIdAux, seenAfter, if_neg hx,
        List.append_eq]
      rw [ih]

theorem dedupeByIdAux_eq_nil (ys : List TradeRecord) :
    ∀ seen : List String, (∀ t ∈ ys, t.tradeId ∈ seen) →
    dedupeByIdAux seen ys = [] := by
  induction ys with
  | nil => intro seen _; rfl
  | cons y ys ih =>
    intro seen h
    have hy : y.tradeId ∈ seen := h y (List.mem_cons_self y ys)
    simp only [dedupeByIdAux, if_pos hy]
    exact ih seen (fun t ht => h t (List.mem_cons_of_mem y ht))

theorem dedupeByIdAux_first_occurrence (xs : List TradeRecord) :
    ∀ (seen : List String) (t : TradeRecord), t ∈ dedupeByIdAux seen xs →
    t.tradeId ∉ seen ∧
    xs.find? (fun u => u.tradeId == t.tradeId) = some t := by
  induction xs with
  | nil => intro seen t ht; cases ht
  | cons x xs ih =>
    intro seen t ht
    by_cases hx : x.tradeId ∈ seen
    · rw [dedupeByIdAux, if_pos hx] at ht
      obtain ⟨hnot, hfind⟩ := ih seen t ht
      have hne : (x.tradeId == t.tradeId) = false := by
        simp only [beq_eq_false_iff_ne]
        intro hc
        exact hnot (hc ▸ hx)
      exact ⟨hnot, by rw [List.find?_cons_of_neg _ (by simp [hne])]; exact hfind⟩
    · rw [dedupeByIdAux, if_neg hx] at ht
      rcases List.mem_cons.mp ht with rfl | hm
      · refine ⟨hx, ?_⟩
        rw [List.find?_cons_of_pos _ (by simp)]
      · obtain ⟨hnot, hfind⟩ := ih _ t hm
        have hne1 : t.tradeId ≠ x.tradeId := by
          intro hc
          exact hnot (hc ▸ List.mem_cons_self _ _)
        have hnot2 : t.tradeId ∉ seen :=
          fun hc => hnot (List.mem_cons_of_mem _ hc)
        have hne : (x.tradeId == t.tradeId) = false := by
          simp only [beq_eq_false_iff_ne]
          exact fun hc => hne1 hc.symm
        exact ⟨hnot2, by rw [List.find?_cons_of_neg _ (by simp [hne])]; exact hfind⟩

theorem dedupeByIdAux_nodup_ids (xs : List TradeRecord) :
    ∀ seen : List String,
    (dedupeByIdAux seen xs).Pairwise (fun a b => a.tradeId ≠ b.tradeId) := by
  induction xs with
  | nil => intro seen; exact List.Pairwise.nil
  | cons x xs ih =>
    intro seen
    by_cases hx : x.tradeId ∈ seen
    · rw [dedupeByIdAux, if_pos hx]
      exact ih seen
    · rw [dedupeByIdAux, if_neg hx]
      refine List.Pairwise.cons ?_ (ih _)
      intro b hb
      have := (dedupeByIdAux_first_occurrence xs _ b hb).1
      intro hc
      exact this (hc ▸ List.mem_cons_self _ _)

theorem dedupeByIdAux_ids_iff (xs : List TradeRecord) :
    ∀ (seen : List String) (a : String),
    (∃ t ∈ dedupeByIdAux seen xs, t.tradeId = a) ↔
    ((∃ t ∈ xs, t.tradeId = a) ∧ a ∉ seen) := by
  induction xs with
  | nil =>
    intro seen a
    simp [dedupeByIdAux]
  | cons x xs ih =>
    intro seen a
    by_cases hx : x.tradeId ∈ seen
    · rw [dedupeByIdAux, if_pos hx, ih]
      constructor
      · rintro ⟨⟨t, ht, rfl⟩, hnot⟩
        exact ⟨⟨t, List.mem_cons_of_mem x ht, rfl⟩, hnot⟩
      · rintro ⟨⟨t, ht, rfl⟩, hnot⟩
        rcases List.mem_cons.mp ht with rfl | hm
        · exact absurd hx hnot
        · exact ⟨⟨t, hm, rfl⟩, hnot⟩
    · rw [dedupeByIdAux, if_neg hx]
      constructor
      · intro hex
        obtain ⟨t, ht, rfl⟩ := hex
        rcases List.mem_cons.mp ht with rfl | hm
        · exact ⟨⟨t, List.mem_cons_self t xs, rfl⟩, hx⟩
        · obtain ⟨⟨u, hu, hid⟩, hnot⟩ := (ih _ t.tradeId).mp ⟨t, hm, rfl⟩
          exact ⟨⟨u, List.mem_cons_of_mem x hu, hid⟩,
            fun hc => hnot (List.mem_cons_of_mem _ hc)⟩
      · rintro ⟨⟨t, ht, rfl⟩, hnot⟩
        rcases List.mem_cons.mp ht with rfl | hm
        · exact ⟨t, List.mem_cons_self _ _, rfl⟩
        · by_cases heq : t.tradeId = x.tradeId
          · exact ⟨x, List.mem_cons_self _ _, heq.symm⟩
          · obtain ⟨u, hu, hid⟩ := ((ih (x.tradeId :: seen) t.tradeId).mpr
              ⟨⟨t, hm, rfl⟩, by
                intro hc
                rcases List.mem_cons.mp hc with hc1 | hc2
                · exact heq hc1
                · exact hnot hc2⟩)
            exact ⟨u, List.mem_cons_of_mem x hu, hid⟩

theorem mem_mergeTradebooks (tradeLists : List (List TradeRecord))
    (t : TradeRecord) :
    t ∈ mergeTradebooks tradeLists ↔ t ∈ dedupeByIdAux [] tradeLists.flatten := by
  unfold mergeTradebooks
  exact (List.perm_insertionSort _ _).mem_iff

/-- C4: the merged tradebook has pairwise-distinct trade ids; every record it
returns is the first occurrence, in flattened input order, of its trade id;
a trade id occurs in the output iff it occurs in the flattened input; the
output is sorted ascending by trade date; and merging the same source twice
equals merging it once. -/
theorem c4_merge_dedup_sort (tradeLists : List (List TradeRecord)) :
    ((mergeTradebooks tradeLists).Pairwise (fun a b => a.tradeId ≠ b.tradeId)) ∧
    (∀ t ∈ mergeTradebooks tradeLists,
      (tradeLists.flatten).find? (fun u => u.tradeId == t.tradeId) = some t) ∧
    (∀ a : String, (∃ t ∈ mergeTradebooks tradeLists, t.tradeId = a) ↔
      (∃ t ∈ tradeLists.flatten, t.tradeId = a)) ∧
    ((mergeTradebooks tradeLists).Pairwise (fun a b => a.tradeDate ≤ b.tradeDate)) ∧
    (∀ A : List TradeRecord, mergeTradebooks [A, A] = mergeTradebooks [A]) := by
  refine ⟨?_, ?_, ?_, ?_, ?_⟩
  · unfold mergeTradebooks
    refine ((List.perm_insertionSort _ _).pairwise_iff ?_).mpr
      (dedupeByIdAux_nodup_ids _ [])
    exact fun hab => Ne.symm hab
  · intro t ht
    exact (dedupeByIdAux_first_occurrence _ [] t
      ((mem_mergeTradebooks tradeLists t).mp ht)).2
  · intro a
    constructor
    · rintro ⟨t, ht, rfl⟩
      have := ((dedupeByIdAux_ids_iff tradeLists.flatten [] t.tradeId).mp
        ⟨t, (mem_mergeTradebooks tradeLists t).mp ht, rfl⟩).1
      exact this
    · rintro ⟨t, ht, rfl⟩
      obtain ⟨u, hu, hid⟩ := (dedupeByIdAux_ids_iff tradeLists.flatten []
        t.tradeId).mpr ⟨⟨t, ht, rfl⟩, by simp⟩
      exact ⟨u, (mem_mergeTradebooks tradeLists u).mpr hu, hid⟩
  · unfold mergeTradebooks
    exact List.sorted_insertionSort _ _
  · intro A
    have h1 : mergeTradebooks [A, A]
        = List.insertionSort (fun a b => a.tradeDate ≤ b.tradeDate)
            (dedupeByIdAux [] (A ++ A)) := by
      unfold mergeTradebooks
      simp
    have h2 : mergeTradebooks [A]
        = List.insertionSort (fun a b => a.tradeDate ≤ b.tradeDate)
            (dedupeByIdAux [] A) := by
      unfold mergeTradebooks
      simp
    rw [h1, h2, dedupeByIdAux_append A [] A,
      dedupeByIdAux_eq_nil A (seenAfter [] A)
        (fun t ht => mem_tradeId_seenAfter A [] t ht),
      List.append_nil]

/-- C4, witness: merging a two-record list with itself, where the duplicate
id carries different field values, keeps one record per id, first occurrence
first, sorted by date. -/
theorem c4_merge_dedup_sort_witness :
    mergeTradebooks [[⟨"T1", "S", "I", "NSE", 5, .buy, 1, 1⟩],
                     [⟨"T1", "S", "I", "NSE", 5, .buy, 2, 2⟩,
                      ⟨"T2", "S", "I", "NSE", 3, .buy, 1, 1⟩]]
      = [⟨"T2", "S", "I", "NSE", 3, .buy, 1, 1⟩,
         ⟨"T1", "S", "I", "NSE", 5, .buy, 1, 1⟩] ∧
    mergeTradebooks [[⟨"T1", "S", "I", "NSE", 5, .buy, 1, 1⟩],
                     [⟨"T1", "S", "I", "NSE", 5, .buy, 1, 1⟩]]
      = mergeTradebooks [[⟨"T1", "S", "I", "NSE", 5, .buy, 1, 1⟩]] := by
  constructor
  · norm_num [mergeTradebooks, dedupeByIdAux, seenAfter, List.insertionSort,
      List.orderedInsert, List.mem_singleton]
  · exact (c4_merge_dedup_sort [[⟨"T1", "S", "I", "NSE", 5, .buy, 1, 1⟩]]).2.2.2.2
      [⟨"T1", "S", "I", "NSE", 5, .buy, 1, 1⟩]

/-! ### Claim C6 -/

theorem gains_foldl (l : List RealizedGainEntry) :
    ∀ b : Rat × Rat × Rat × Rat,
    l.foldl (fun (b : Rat × Rat × Rat × Rat) entry =>
      match entry.classification with
      | .SHORT_TERM =>
        if 0 ≤ entry.gainLoss then (b.1 + entry.gainLoss, b.2.1, b.2.2.1, b.2.2.2)
        else (b.1, b.2.1 + |entry.gainLoss|, b.2.2.1, b.2.2.2)
      | .LONG_TERM =>
        if 0 ≤ entry.gainLoss then (b.1, b.2.1, b.2.2.1 + entry.gainLoss, b.2.2.2)
        else (b.1, b.2.1, b.2.2.1, b.2.2.2 + |entry.gainLoss|)) b
    = (b.1 + ((l.filter (fun e =>
          e.classification = .SHORT_TERM ∧ 0 ≤ e.gainLoss)).map
            (fun e => e.gainLoss)).sum,
       b.2.1 + ((l.filter (fun e =>
          e.classification = .SHORT_TERM ∧ e.gainLoss < 0)).map
            (fun e => |e.gainLoss|)).sum,
       b.2.2.1 + ((l.filter (fun e =>
          e.classification = .LONG_TERM ∧ 0 ≤ e.gainLoss)).map
            (fun e => e.gainLoss)).sum,
       b.2.2.2 + ((l.filter (fun e =>
          e.classification = .LONG_TERM ∧ e.gainLoss < 0)).map
            (fun e => |e.gainLoss|)).sum) := by
  induction l with
  | nil => intro b; simp
  | cons e l ih =>
    intro b
    rw [List.foldl_cons]
    cases hc : e.classification with
    | SHORT_TERM =>
      by_cases hg : 0 ≤ e.gainLoss
      · have hng : ¬ e.gainLoss < 0 := not_lt.mpr hg
        rw [if_pos hg, ih]
        simp [List.filter_cons, hc, hg, hng, short_eq_long_false,
          long_eq_short_false, Prod.mk.injEq]
        ring
      · have hlt : e.gainLoss < 0 := not_le.mp hg
        rw [if_neg hg, ih]
        simp [List.filter_cons, hc, hg, hlt, short_eq_long_false,
          long_eq_short_false, Prod.mk.injEq]
        ring
    | LONG_TERM =>
      by_cases hg : 0 ≤ e.gainLoss
      · have hng : ¬ e.gainLoss < 0 := not_lt.mpr hg
        rw [if_pos hg, ih]
        simp [List.filter_cons, hc, hg, hng, short_eq_long_false,
          long_eq_short_false, Prod.mk.injEq]
        ring
      · have hlt : e.gainLoss < 0 := not_le.mp hg
        rw [if_neg hg, ih]
        simp [List.filter_cons, hc, hg, hlt, short_eq_long_false,
          long_eq_short_false, Prod.mk.injEq]
        ring

theorem sum_gain_nonneg_eq_pos (c : Classification) (l : List RealizedGainEntry) :
    ((l.filter (fun e => e.classification = c ∧ 0 ≤ e.gainLoss)).map
        (fun e => e.gainLoss)).sum
      = ((l.filter (fun e => e.classification = c ∧ 0 < e.gainLoss)).map
        (fun e => e.gainLoss)).sum := by
  induction l with
  | nil => rfl
  | cons e l ih =>
    rw [List.filter_cons, List.filter_cons]
    by_cases hcl : e.classification = c
    · rcases lt_trichotomy e.gainLoss 0 with hneg | hzero | hpos
      · rw [if_neg (by simp [hcl]; linarith),
          if_neg (by simp [hcl]; linarith)]
        exact ih
      · rw [if_pos (by simp [hcl, hzero]),
          if_neg (by simp [hcl, hzero])]
        rw [List.map_cons, List.sum_cons, hzero, zero_add]
        exact ih
      · rw [if_pos (by simp [hcl, le_of_lt hpos]),
          if_pos (by simp [hcl, hpos])]
        rw [List.map_cons, List.sum_cons, List.map_cons, List.sum_cons, ih]
    · rw [if_neg (by simp [hcl]), if_neg (by simp [hcl])]
      exact ih

/-- C6: the realized-gains summary coincides with the reference definition
written from the spec (fiscal-year filter, four sign-and-classification
buckets with losses as absolute values, nets as gain minus loss); all four
buckets are non-negative; the nets equal the bucket differences; and the
returned entry list is exactly the fiscal-year filter of the input. -/
theorem c6_summarize_realized_gains (fyStart : Int)
    (entries : List RealizedGainEntry) :
    summarizeRealizedGains fyStart entries
      = summarizeRealizedGainsSpec fyStart entries ∧
    0 ≤ (summarizeRealizedGains fyStart entries).stcg ∧
    0 ≤ (summarizeRealizedGains fyStart entries).stcl ∧
    0 ≤ (summarizeRealizedGains fyStart entries).ltcg ∧
    0 ≤ (summarizeRealizedGains fyStart entries).ltcl ∧
    (summarizeRealizedGains fyStart entries).netShortTerm
      = (summarizeRealizedGains fyStart entries).stcg
        - (summarizeRealizedGains fyStart entries).stcl ∧
    (summarizeRealizedGains fyStart entries).netLongTerm
      = (summarizeRealizedGains fyStart entries).ltcg
        - (summarizeRealizedGains fyStart entries).ltcl ∧
    (summarizeRealizedGains fyStart entries).entries
      = entries.filter (fun e => fyStart ≤ e.sellDate) := by
  have hmain : summarizeRealizedGains fyStart entries
      = summarizeRealizedGainsSpec fyStart entries := by
    simp only [summarizeRealizedGains, summarizeRealizedGainsSpec, gains_foldl,
      zero_add, RealizedGainsSummary.mk.injEq]
    refine ⟨?_, trivial, ?_, trivial, ?_, ?_, trivial⟩
    · exact sum_gain_nonneg_eq_pos .SHORT_TERM _
    · exact sum_gain_nonneg_eq_pos .LONG_TERM _
    · rw [sum_gain_nonneg_eq_pos .SHORT_TERM _]
    · rw [sum_gain_nonneg_eq_pos .LONG_TERM _]
  have hstcg : 0 ≤ (summarizeRealizedGains fyStart entries).stcg := by
    rw [hmain]
    refine List.sum_nonneg ?_
    intro x hx
    simp only [summarizeRealizedGainsSpec, List.mem_map, List.mem_filter] at hx
    obtain ⟨e, ⟨_, he⟩, rfl⟩ := hx
    have := of_decide_eq_true he
    exact le_of_lt this.2
  have hstcl : 0 ≤ (summarizeRealizedGains fyStart entries).stcl := by
    rw [hmain]
    refine List.sum_nonneg ?_
    intro x hx
    simp only [summarizeRealizedGainsSpec, List.mem_map, List.mem_filter] at hx
    obtain ⟨e, _, rfl⟩ := hx
    exact abs_nonneg _
  have hltcg : 0 ≤ (summarizeRealizedGains fyStart entries).ltcg := by
    rw [hmain]
    refine List.sum_nonneg ?_
    intro x hx
    simp only [summarizeRealizedGainsSpec, List.mem_map, List.mem_filter] at hx
    obtain ⟨e, ⟨_, he⟩, rfl⟩ := hx
    have := of_decide_eq_true he
    exact le_of_lt this.2
  have hltcl : 0 ≤ (summarizeRealizedGains fyStart entries).ltcl := by
    rw [hmain]
    refine List.sum_nonneg ?_
    intro x hx
    simp only [summarizeRealizedGainsSpec, List.mem_map, List.mem_filter] at hx
    obtain ⟨e, _, rfl⟩ := hx
    exact abs_nonneg _
  refine ⟨hmain, hstcg, hstcl, hltcg, hltcl, rfl, rfl, rfl⟩

/-! ### Claim C1 -/

/-- C1, counterexample to the claim as stated: with buys of (day 0, qty 5,
price 10) then (day 1, qty 3, price 20) and a sell of k = 5 = A (allowed by
`k <= A`), the first lot is removed entirely rather than left at quantity
`A - k = 0` with price 10; the remaining lots are exactly the second lot. -/
theorem c1_counterexample :
    ((processTradesForHolding fifoExactSellTrades).1.map
      (fun acc => acc.lots)) = some [⟨3, 1, 20⟩] ∧
    ((processTradesForHolding fifoExactSellTrades).1.map
      (fun acc => acc.lots)) ≠ some [⟨0, 0, 10⟩, ⟨3, 1, 20⟩] := by
  have h : ((processTradesForHolding fifoExactSellTrades).1.map
      (fun acc => acc.lots)) = some [⟨3, 1, 20⟩] := by
    norm_num [fifoExactSellTrades, processTradesForHolding,
      sortTradesChronologically, processTrade, applyFifoSell, applyFifoSellGo,
      removeEmptyLots, realizedEntriesForSell, List.insertionSort,
      List.orderedInsert, List.filter_cons]
  refine ⟨h, ?_⟩
  rw [h]
  intro hc
  rw [Option.some_inj] at hc
  have := List.head_eq_of_cons_eq hc
  have h2 : (⟨3, 1, 20⟩ : HoldingLot).quantity
      = (⟨0, 0, 10⟩ : HoldingLot).quantity := by rw [this]
  norm_num at h2

/-- C1 (amended): for buys of (day1, qty A, priceA) then (day2, qty B,
priceB) with day1 < day2 and a sell of quantity 0 < k ≤ A on a later day:
if k < A the first lot is left with quantity A - k and unchanged
purchasePrice priceA and the second lot is untouched; if k = A the first
lot (reaching quantity 0) is removed and only the untouched second lot
remains. -/
theorem c1_fifo_order_amended (sym isin ex id1 id2 id3 : String)
    (d1 d2 d3 : Int) (A B pA pB pS k : Rat)
    (h12 : d1 < d2) (h23 : d2 < d3)
    (hk0 : 0 < k) (hkA : k ≤ A) (hB : 0 < B) :
    (processTradesForHolding
      [⟨id1, sym, isin, ex, d1, .buy, A, pA⟩,
       ⟨id2, sym, isin, ex, d2, .buy, B, pB⟩,
       ⟨id3, sym, isin, ex, d3, .sell, k, pS⟩]).1
    = some { symbol := sym, isin := isin, exchange := ex,
             lots := if k < A then [⟨A - k, d1, pA⟩, ⟨B, d2, pB⟩]
                     else [⟨B, d2, pB⟩] } := by
  have hsort : sortTradesChronologically
      [⟨id1, sym, isin, ex, d1, .buy, A, pA⟩,
       ⟨id2, sym, isin, ex, d2, .buy, B, pB⟩,
       ⟨id3, sym, isin, ex, d3, .sell, k, pS⟩]
      = [⟨id1, sym, isin, ex, d1, .buy, A, pA⟩,
         ⟨id2, sym, isin, ex, d2, .buy, B, pB⟩,
         ⟨id3, sym, isin, ex, d3, .sell, k, pS⟩] := by
    unfold sortTradesChronologically
    apply List.Sorted.insertionSort_eq
    refine List.Pairwise.cons ?_ (List.Pairwise.cons ?_ (List.pairwise_singleton _ _))
    · intro b hb
      rcases List.mem_cons.mp hb with rfl | hb2
      · show d1 ≤ d2
        linarith
      · rcases List.mem_singleton.mp hb2 with rfl
        show d1 ≤ d3
        linarith
    · intro b hb
      rcases List.mem_singleton.mp hb with rfl
      show d2 ≤ d3
      linarith
  rw [processTradesForHolding_eq_cons _ _ _ hsort]
  by_cases hlt : k < A
  · have hAk : ¬ A ≤ k := not_le.mpr hlt
    have hsub : 0 < A - k := sub_pos.mpr hlt
    simp only [List.foldl_cons, List.foldl_nil, processTrade,
      ne_empty_and_eq_empty, if_false, applyFifoSell, applyFifoSellGo,
      removeEmptyLots, List.filter_cons, List.filter_nil]
    norm_num [hk0, hAk, hsub, hB, hlt]
  · have hEq : k = A := le_antisymm hkA (not_lt.mp hlt)
    subst hEq
    simp only [List.foldl_cons, List.foldl_nil, processTrade,
      ne_empty_and_eq_empty, if_false, applyFifoSell, applyFifoSellGo,
      removeEmptyLots, List.filter_cons, List.filter_nil]
    norm_num [hk0, hB, hlt]

/-- C1, witness: the amended theorem at (A, B, pA, pB) = (5, 3, 10, 20),
k = 2 < A: the first lot keeps price 10 at quantity 3, the second lot is
untouched. -/
theorem c1_fifo_order_amended_witness :
    (processTradesForHolding
      [⟨"T1", "S", "I", "NSE", 0, .buy, 5, 10⟩,
       ⟨"T2", "S", "I", "NSE", 1, .buy, 3, 20⟩,
       ⟨"T3", "S", "I", "NSE", 2, .sell, 2, 30⟩]).1
    = some { symbol := "S", isin := "I", exchange := "NSE",
             lots := [⟨3, 0, 10⟩, ⟨3, 1, 20⟩] } := by
  have h := c1_fifo_order_amended "S" "I" "NSE" "T1" "T2" "T3" 0 1 2 5 3 10 20 30 2
    (by norm_num) (by norm_num) (by norm_num) (by norm_num) (by norm_num)
  rw [h]
  norm_num

/-! ### Claim C9 -/

theorem processTradesForHolding_some_meta (g : List TradeRecord)
    (acc : HoldingAccumulator)
    (hacc : (processTradesForHolding g).1 = some acc) :
    ∃ f ∈ g, acc.symbol = f.symbol ∧ acc.exchange = f.exchange := by
  cases hs : sortTradesChronologically g with
  | nil => rw [processTradesForHolding_eq_nil g hs] at hacc; cases hacc
  | cons f r =>
    rw [processTradesForHolding_eq_cons g f r hs] at hacc
    simp only at hacc
    by_cases he : ((f :: r).foldl processTrade
        ({ symbol := f.symbol, isin := f.isin, exchange := f.exchange,
           lots := [] }, [])).1.lots.isEmpty
    · rw [if_pos he] at hacc; cases hacc
    · rw [if_neg he] at hacc
      have hacc2 : acc = ((f :: r).foldl processTrade
          ({ symbol := f.symbol, isin := f.isin, exchange := f.exchange,
             lots := [] }, [])).1 := by
        cases hacc; rfl
      obtain ⟨m1, m2⟩ := foldl_processTrade_meta (f :: r)
        ({ symbol := f.symbol, isin := f.isin, exchange := f.exchange,
           lots := [] }, [])
      refine ⟨f, ?_, ?_, ?_⟩
      · exact (mem_sortTradesChronologically g f).mp
          (hs ▸ List.mem_cons_self f r)
      · rw [hacc2, m1]
      · rw [hacc2, m2]

theorem group_some_key (trades : List TradeRecord)
    (p : String × List TradeRecord) (acc : HoldingAccumulator)
    (hp : p ∈ groupTradesByHolding trades)
    (hacc : (processTradesForHolding p.2).1 = some acc) :
    createHoldingKey acc.symbol acc.exchange = p.1 ∧
    ∃ f ∈ trades, acc.symbol = f.symbol ∧ acc.exchange = f.exchange := by
  obtain ⟨f, hf, h1, h2⟩ := processTradesForHolding_some_meta p.2 acc hacc
  have hfilter := mem_groupTradesByHolding trades p hp
  rw [hfilter] at hf
  have hkeyb := List.of_mem_filter hf
  have hkey : tradeKey f = p.1 := of_decide_eq_true hkeyb
  have hmem : f ∈ trades := List.mem_of_mem_filter hf
  constructor
  · rw [h1, h2]
    exact hkey
  · exact ⟨f, hmem, h1, h2⟩

theorem append_colon_inj (l1 : List Char) : ∀ (l2 r1 r2 : List Char),
    (':' : Char) ∉ l1 → (':' : Char) ∉ l2 →
    l1 ++ ':' :: r1 = l2 ++ ':' :: r2 → l1 = l2 ∧ r1 = r2 := by
  induction l1 with
  | nil =>
    intro l2 r1 r2 _ h2 heq
    cases l2 with
    | nil =>
      rw [List.nil_append, List.nil_append] at heq
      injection heq with _ hr
      exact ⟨rfl, hr⟩
    | cons c l2t =>
      rw [List.nil_append, List.cons_append] at heq
      injection heq with hc _
      exact absurd (hc ▸ List.mem_cons_self c l2t) h2
  | cons c l1t ih =>
    intro l2 r1 r2 h1 h2 heq
    cases l2 with
    | nil =>
      rw [List.cons_append, List.nil_append] at heq
      injection heq with hc _
      exact absurd (hc ▸ List.mem_cons_self c l1t) h1
    | cons d l2t =>
      rw [List.cons_append, List.cons_append] at heq
      injection heq with hc hrest
      obtain ⟨ha, hb⟩ := ih l2t r1 r2
        (fun hm => h1 (List.mem_cons_of_mem c hm))
        (fun hm => h2 (List.mem_cons_of_mem d hm)) hrest
      exact ⟨by rw [hc, ha], hb⟩

theorem createHoldingKey_inj (s v s2 v2 : String)
    (h1 : (':' : Char) ∉ s.data) (h2 : (':' : Char) ∉ s2.data)
    (heq : createHoldingKey s v = createHoldingKey s2 v2) :
    s = s2 ∧ v = v2 := by
  have hdata : s.data ++ ':' :: v.data = s2.data ++ ':' :: v2.data := by
    have hd := congrArg String.data heq
    simpa [createHoldingKey, String.data_append] using hd
  obtain ⟨ha, hb⟩ := append_colon_inj s.data s2.data v.data v2.data h1 h2 hdata
  exact ⟨String.ext ha, String.ext hb⟩

/-- C9 (amended): provided no traded symbol contains the key separator `:`,
the engine's output has at most one Holding per distinct (symbol, venue)
pair, and every returned Holding is exactly the FIFO result of only its own
pair's trades — a sell on one venue never consumes lots bought on another
venue. (Without that hypothesis, two distinct pairs can collide on the same
`symbol:venue` key and are then processed as one group.) -/
theorem c9_venue_independence_amended (now fyStart : Int)
    (trades : List TradeRecord)
    (hnc : ∀ t ∈ trades, (':' : Char) ∉ t.symbol.data) :
    ((calculateHoldings now fyStart trades).Pairwise
      (fun h h2 => ¬ (h.symbol = h2.symbol ∧ h.exchange = h2.exchange))) ∧
    (∀ h ∈ calculateHoldings now fyStart trades, ∃ acc,
      (processTradesForHolding (trades.filter
        (fun t => t.symbol = h.symbol ∧ t.exchange = h.exchange))).1
          = some acc ∧
      h = mkHolding now acc) := by
  constructor
  · cases trades with
    | nil => simp [calculateHoldings, analyzePortfolio]
    | cons t ts =>
      unfold calculateHoldings analyzePortfolio
      simp only [List.isEmpty_cons, Bool.false_eq_true, if_false]
      refine ((List.perm_insertionSort
          (fun a b : Holding => a.symbol ≤ b.symbol) _).pairwise_iff ?_).mpr ?_
      · intro a b hab hc
        exact hab ⟨hc.1.symm, hc.2.symm⟩
      · rw [List.filterMap_map]
        have hnd : ((groupTradesByHolding (t :: ts)).map Prod.fst).Nodup :=
          groupTradesByHolding_keys_nodup (t :: ts)
        have hpw0 : (groupTradesByHolding (t :: ts)).Pairwise
            (fun p q => p.1 ≠ q.1) := List.pairwise_map.mp hnd
        have hpw := List.Pairwise.and_mem.mp hpw0
        refine List.Pairwise.filterMap _ ?_ hpw
        intro p q hpq x hx y hy
        simp only [Function.comp, Option.mem_def, Option.map_eq_some'] at hx hy
        obtain ⟨accp, haccp, rfl⟩ := hx
        obtain ⟨accq, haccq, rfl⟩ := hy
        intro hc
        obtain ⟨hkp, _⟩ := group_some_key (t :: ts) p accp hpq.1 haccp
        obtain ⟨hkq, _⟩ := group_some_key (t :: ts) q accq hpq.2.1 haccq
        apply hpq.2.2
        rw [← hkp, ← hkq]
        have hs : accp.symbol = accq.symbol := hc.1
        have he : accp.exchange = accq.exchange := hc.2
        rw [hs, he]
  · intro h hm
    obtain ⟨p, hp, acc, hacc, rfl⟩ :=
      (mem_calculateHoldings now fyStart trades h).mp hm
    obtain ⟨hkey, f, hf, h1, h2⟩ := group_some_key trades p acc hp hacc
    have hfilter := mem_groupTradesByHolding trades p hp
    have hncacc : (':' : Char) ∉ acc.symbol.data := by
      rw [h1]
      exact hnc f hf
    have hpred : ∀ t ∈ trades,
        (decide (t.symbol = (mkHolding now acc).symbol ∧
                 t.exchange = (mkHolding now acc).exchange))
          = (decide (tradeKey t = p.1)) := by
      intro t ht
      rw [decide_eq_decide]
      have hsymb : (mkHolding now acc).symbol = acc.symbol := rfl
      have hexch : (mkHolding now acc).exchange = acc.exchange := rfl
      rw [hsymb, hexch, ← hkey]
      constructor
      · rintro ⟨hts, hte⟩
        show createHoldingKey t.symbol t.exchange
          = createHoldingKey acc.symbol acc.exchange
        rw [hts, hte]
      · intro hk
        exact createHoldingKey_inj t.symbol t.exchange acc.symbol acc.exchange
          (hnc t ht) hncacc hk
    have hflt : trades.filter
        (fun t => t.symbol = (mkHolding now acc).symbol ∧
                  t.exchange = (mkHolding now acc).exchange) = p.2 := by
      rw [hfilter]
      exact List.filter_congr hpred
    refine ⟨acc, ?_, rfl⟩
    rw [hflt]
    exact hacc

/-- C9, counterexample to the claim as stated: in `venueCollisionTrades` the
symbol `A:B` on venue `C` and the symbol `A` on venue `B:C` collide on the
grouping key `A:B:C`. The sell of pair (A, B:C) consumes the lot bought by
the distinct pair (A:B, C): the engine returns no Holding at all, although
processing the (A:B, C) trades alone leaves an open 5-share position. -/
theorem c9_counterexample :
    (calculateHoldings 2 0 venueCollisionTrades).map
      (fun h => (h.symbol, h.exchange)) = [] ∧
    (processTradesForHolding (venueCollisionTrades.filter
      (fun t => t.symbol = "A:B" ∧ t.exchange = "C"))).1
      = some { symbol := "A:B", isin := "", exchange := "C",
               lots := [⟨5, 0, 10⟩] } := by
  constructor
  · have hg : groupTradesByHolding venueCollisionTrades
        = [("A:B:C", venueCollisionTrades)] := by decide
    unfold calculateHoldings analyzePortfolio
    rw [hg]
    norm_num [venueCollisionTrades, processTradesForHolding,
      sortTradesChronologically, processTrade, applyFifoSell, applyFifoSellGo,
      removeEmptyLots, realizedEntriesForSell, List.insertionSort,
      List.orderedInsert, List.filter_cons, mkHolding, calculateTotalQuantity,
      calculateAvgPurchasePrice, findOldestPurchaseDate,
      findNewestPurchaseDate, classifyHolding, differenceInDays,
      summarizeRealizedGains]
  · have hflt : venueCollisionTrades.filter
        (fun t => t.symbol = "A:B" ∧ t.exchange = "C")
        = [⟨"T1", "A:B", "", "C", 0, .buy, 5, 10⟩] := by decide
    rw [hflt]
    norm_num [processTradesForHolding, sortTradesChronologically,
      processTrade, applyFifoSell, applyFifoSellGo, removeEmptyLots,
      realizedEntriesForSell, List.insertionSort, List.orderedInsert,
      List.filter_cons]

/-- C9, witness: the amended theorem on a two-venue trade list without
colons — the two venues' holdings never share a (symbol, venue) pair. -/
theorem c9_venue_independence_amended_witness :
    (calculateHoldings 500 0 venueSplitTrades).Pairwise
      (fun h h2 => ¬ (h.symbol = h2.symbol ∧ h.exchange = h2.exchange)) :=
  (c9_venue_independence_amended 500 0 venueSplitTrades (by decide)).1

/-! ### Claim C10 -/

theorem classify_foldl (now : Int) (lots : List HoldingLot) :
    ∀ b : Rat × Rat × Rat × Rat,
    lots.foldl (fun (s : Rat × Rat × Rat × Rat) lot =>
      let holdingDays := differenceInDays now lot.purchaseDate
      let lotCost := lot.quantity * lot.purchasePrice
      if holdingDays ≤ 365 then
        (s.1 + lot.quantity, s.2.1, s.2.2.1 + lotCost, s.2.2.2)
      else (s.1, s.2.1 + lot.quantity, s.2.2.1, s.2.2.2 + lotCost)) b
    = (b.1 + ((lots.filter (fun lot =>
          differenceInDays now lot.purchaseDate ≤ 365)).map
            (fun lot => lot.quantity)).sum,
       b.2.1 + ((lots.filter (fun lot =>
          ¬ differenceInDays now lot.purchaseDate ≤ 365)).map
            (fun lot => lot.quantity)).sum,
       b.2.2.1 + ((lots.filter (fun lot =>
          differenceInDays now lot.purchaseDate ≤ 365)).map
            (fun lot => lot.quantity * lot.purchasePrice)).sum,
       b.2.2.2 + ((lots.filter (fun lot =>
          ¬ differenceInDays now lot.purchaseDate ≤ 365)).map
            (fun lot => lot.quantity * lot.purchasePrice)).sum) := by
  induction lots with
  | nil => intro b; simp
  | cons lot lots ih =>
    intro b
    rw [List.foldl_cons]
    by_cases hd : differenceInDays now lot.purchaseDate ≤ 365
    · have h1 : (decide (differenceInDays now lot.purchaseDate ≤ 365)) = true :=
        decide_eq_true hd
      have h2 : (decide (¬ differenceInDays now lot.purchaseDate ≤ 365)) = false := by
        simp [hd]
      rw [if_pos hd, ih]
      simp only [List.filter_cons, h1, h2, eq_self_iff_true, Bool.false_eq_true,
        if_true, if_false, List.map_cons, List.sum_cons, Prod.mk.injEq]
      refine ⟨by ring, trivial, by ring, trivial⟩
    · have h1 : (decide (differenceInDays now lot.purchaseDate ≤ 365)) = false := by
        simp [hd]
      have h2 : (decide (¬ differenceInDays now lot.purchaseDate ≤ 365)) = true := by
        simp [hd]
      rw [if_neg hd, ih]
      simp only [List.filter_cons, h1, h2, eq_self_iff_true, Bool.false_eq_true,
        if_true, if_false, List.map_cons, List.sum_cons, Prod.mk.injEq]
      refine ⟨trivial, by ring, trivial, by ring⟩

theorem filter_split_sum (p : HoldingLot → Prop) [DecidablePred p]
    (f : HoldingLot → Rat) (lots : List HoldingLot) :
    ((lots.filter (fun l => p l)).map f).sum
      + ((lots.filter (fun l => ¬ p l)).map f).sum
    = (lots.map f).sum := by
  induction lots with
  | nil => simp
  | cons a lots ih =>
    by_cases hp : p a
    · have h1 : (decide (p a)) = true := decide_eq_true hp
      have h2 : (decide (¬ p a)) = false := by simp [hp]
      simp only [List.filter_cons, h1, h2, eq_self_iff_true, Bool.false_eq_true,
        if_true, if_false, List.map_cons, List.sum_cons]
      rw [← ih]
      ring
    · have h1 : (decide (p a)) = false := by simp [hp]
      have h2 : (decide (¬ p a)) = true := by simp [hp]
      simp only [List.filter_cons, h1, h2, eq_self_iff_true, Bool.false_eq_true,
        if_true, if_false, List.map_cons, List.sum_cons]
      rw [← ih]
      ring

theorem zero_qty_zero_cost (L : List HoldingLot)
    (hn : ∀ l ∈ L, 0 ≤ l.quantity)
    (hz : (L.map (fun l => l.quantity)).sum = 0) :
    (L.map (fun l => l.quantity * l.purchasePrice)).sum = 0 := by
  induction L with
  | nil => rfl
  | cons a L ih =>
    rw [List.map_cons, List.sum_cons] at hz ⊢
    have ha : 0 ≤ a.quantity := hn a (List.mem_cons_self a L)
    have hrest : 0 ≤ (L.map (fun l => l.quantity)).sum := by
      have := calculateTotalQuantity_nonneg L
        (fun l hl => hn l (List.mem_cons_of_mem a hl))
      simpa [calculateTotalQuantity] using this
    have haz : a.quantity = 0 := by linarith
    have hLz : (L.map (fun l => l.quantity)).sum = 0 := by linarith
    rw [haz, zero_mul, zero_add]
    exact ih (fun l hl => hn l (List.mem_cons_of_mem a hl)) hLz

theorem avg_mul_total (lots : List HoldingLot) (hne : lots ≠ [])
    (hq : 0 < calculateTotalQuantity lots) :
    calculateAvgPurchasePrice lots * calculateTotalQuantity lots
      = (lots.map (fun l => l.quantity * l.purchasePrice)).sum := by
  cases lots with
  | nil => exact absurd rfl hne
  | cons a L =>
    unfold calculateAvgPurchasePrice
    rw [if_neg (by simp)]
    simp only
    unfold calculateTotalQuantity at hq ⊢
    rw [if_pos hq]
    exact div_mul_cancel₀ _ (ne_of_gt hq)

theorem classifyLots_fields (now : Int) (lots : List HoldingLot) (cp : Rat) :
    classifyLotsByHoldingPeriod now lots cp
    = { stQuantity := ((lots.filter (fun lot =>
          differenceInDays now lot.purchaseDate ≤ 365)).map
            (fun lot => lot.quantity)).sum,
        ltQuantity := ((lots.filter (fun lot =>
          ¬ differenceInDays now lot.purchaseDate ≤ 365)).map
            (fun lot => lot.quantity)).sum,
        stAvgPrice := if 0 < ((lots.filter (fun lot =>
            differenceInDays now lot.purchaseDate ≤ 365)).map
              (fun lot => lot.quantity)).sum then
          ((lots.filter (fun lot =>
            differenceInDays now lot.purchaseDate ≤ 365)).map
              (fun lot => lot.quantity * lot.purchasePrice)).sum
          / ((lots.filter (fun lot =>
            differenceInDays now lot.purchaseDate ≤ 365)).map
              (fun lot => lot.quantity)).sum
          else 0,
        ltAvgPrice := if 0 < ((lots.filter (fun lot =>
            ¬ differenceInDays now lot.purchaseDate ≤ 365)).map
              (fun lot => lot.quantity)).sum then
          ((lots.filter (fun lot =>
            ¬ differenceInDays now lot.purchaseDate ≤ 365)).map
              (fun lot => lot.quantity * lot.purchasePrice)).sum
          / ((lots.filter (fun lot =>
            ¬ differenceInDays now lot.purchaseDate ≤ 365)).map
              (fun lot => lot.quantity)).sum
          else 0,
        stPnl := ((lots.filter (fun lot =>
            differenceInDays now lot.purchaseDate ≤ 365)).map
              (fun lot => lot.quantity)).sum * cp
          - ((lots.filter (fun lot =>
            differenceInDays now lot.purchaseDate ≤ 365)).map
              (fun lot => lot.quantity * lot.purchasePrice)).sum,
        ltPnl := ((lots.filter (fun lot =>
            ¬ differenceInDays now lot.purchaseDate ≤ 365)).map
              (fun lot => lot.quantity)).sum * cp
          - ((lots.filter (fun lot =>
            ¬ differenceInDays now lot.purchaseDate ≤ 365)).map
              (fun lot => lot.quantity * lot.purchasePrice)).sum } := by
  simp only [classifyLotsByHoldingPeriod, classify_foldl, zero_add]

/-- C10: for every Holding produced by the FIFO engine from positive trades
and overlaid with a quote, the per-lot short/long split partitions the
holding exactly: stQuantity + ltQuantity = totalQuantity,
stQuantity·stAvgPrice + ltQuantity·ltAvgPrice = Σ lot cost, and
stPnl + ltPnl = pnl, in exact rational arithmetic. -/
theorem c10_st_lt_partition (now fyStart : Int) (trades : List TradeRecord)
    (quotes : List (String × NseQuote))
    (hpos : ∀ t ∈ trades, 0 < t.quantity) :
    ∀ h2 ∈ updateHoldingsWithPrices now quotes
      (calculateHoldings now fyStart trades),
    ∀ cp, h2.currentPrice = some cp →
    ∃ stq ltq sta lta stp ltp pnlv,
      h2.stQuantity = some stq ∧ h2.ltQuantity = some ltq ∧
      h2.stAvgPrice = some sta ∧ h2.ltAvgPrice = some lta ∧
      h2.stPnl = some stp ∧ h2.ltPnl = some ltp ∧ h2.pnl = some pnlv ∧
      stq + ltq = h2.totalQuantity ∧
      stq * sta + ltq * lta
        = (h2.lots.map (fun l => l.quantity * l.purchasePrice)).sum ∧
      stp + ltp = pnlv := by
  intro h2 hm cp hcp
  obtain ⟨h, hh, rfl⟩ := List.mem_map.mp hm
  obtain ⟨p, hp, acc, hacc, rfl⟩ :=
    (mem_calculateHoldings now fyStart trades h).mp hh
  have hsub : ∀ t ∈ p.2, 0 < t.quantity := by
    intro t ht
    have hfilter := mem_groupTradesByHolding trades p hp
    rw [hfilter] at ht
    exact hpos t (List.mem_of_mem_filter ht)
  obtain ⟨hne, hposl⟩ := processTradesForHolding_some_pos p.2 acc hsub hacc
  cases hlq : quotes.lookup (mkHolding now acc).symbol with
  | none =>
    rw [overlayHolding_no_quote now quotes _ hlq] at hcp
    simp [mkHolding] at hcp
  | some q =>
    simp only [overlayHolding, hlq] at hcp
    rw [Option.some_inj] at hcp
    subst hcp
    set c := classifyLotsByHoldingPeriod now (mkHolding now acc).lots q.lastPrice
      with hc
    refine ⟨c.stQuantity, c.ltQuantity, c.stAvgPrice, c.ltAvgPrice,
      c.stPnl, c.ltPnl,
      q.lastPrice * (mkHolding now acc).totalQuantity
        - (mkHolding now acc).avgPurchasePrice
          * (mkHolding now acc).totalQuantity,
      ?_, ?_, ?_, ?_, ?_, ?_, ?_, ?_, ?_, ?_⟩
    · simp only [overlayHolding, hlq, hc]
    · simp only [overlayHolding, hlq, hc]
    · simp only [overlayHolding, hlq, hc]
    · simp only [overlayHolding, hlq, hc]
    · simp only [overlayHolding, hlq, hc]
    · simp only [overlayHolding, hlq, hc]
    · simp only [overlayHolding, hlq, hc]
    · -- quantities partition
      rw [hc, classifyLots_fields]
      simp only [overlayHolding, hlq]
      exact filter_split_sum
        (fun lot => differenceInDays now lot.purchaseDate ≤ 365)
        (fun lot => lot.quantity) (mkHolding now acc).lots
    · -- cost partition
      rw [hc, classifyLots_fields]
      simp only [overlayHolding, hlq]
      have hnn : ∀ l ∈ (mkHolding now acc).lots, 0 ≤ l.quantity :=
        fun l hl => le_of_lt (hposl l hl)
      have hterm : ∀ (pr : HoldingLot → Prop) [DecidablePred pr],
          (((mkHolding now acc).lots.filter (fun l => pr l)).map
              (fun lot => lot.quantity)).sum
            * (if 0 < (((mkHolding now acc).lots.filter (fun l => pr l)).map
                  (fun lot => lot.quantity)).sum then
                (((mkHolding now acc).lots.filter (fun l => pr l)).map
                  (fun lot => lot.quantity * lot.purchasePrice)).sum
                / (((mkHolding now acc).lots.filter (fun l => pr l)).map
                  (fun lot => lot.quantity)).sum
              else 0)
          = (((mkHolding now acc).lots.filter (fun l => pr l)).map
              (fun lot => lot.quantity * lot.purchasePrice)).sum := by
        intro pr hdec
        by_cases hSQ : 0 < (((mkHolding now acc).lots.filter
            (fun l => pr l)).map (fun lot => lot.quantity)).sum
        · rw [if_pos hSQ, mul_comm, div_mul_cancel₀ _ (ne_of_gt hSQ)]
        · have hnn2 : ∀ l ∈ (mkHolding now acc).lots.filter (fun l => pr l),
              0 ≤ l.quantity :=
            fun l hl => hnn l (List.mem_of_mem_filter hl)
          have hge : 0 ≤ (((mkHolding now acc).lots.filter
              (fun l => pr l)).map (fun lot => lot.quantity)).sum := by
            have := calculateTotalQuantity_nonneg _ hnn2
            simpa [calculateTotalQuantity] using this
          have hz : (((mkHolding now acc).lots.filter (fun l => pr l)).map
              (fun lot => lot.quantity)).sum = 0 :=
            le_antisymm (not_lt.mp hSQ) hge
          rw [if_neg hSQ, mul_zero,
            zero_qty_zero_cost _ hnn2 hz]
      rw [hterm (fun lot => differenceInDays now lot.purchaseDate ≤ 365),
        hterm (fun lot => ¬ differenceInDays now lot.purchaseDate ≤ 365)]
      exact filter_split_sum
        (fun lot => differenceInDays now lot.purchaseDate ≤ 365)
        (fun lot => lot.quantity * lot.purchasePrice) (mkHolding now acc).lots
    · -- P&L partition
      rw [hc, classifyLots_fields]
      simp only
      have hQ := filter_split_sum
        (fun lot => differenceInDays now lot.purchaseDate ≤ 365)
        (fun lot => lot.quantity) (mkHolding now acc).lots
      have hC := filter_split_sum
        (fun lot => differenceInDays now lot.purchaseDate ≤ 365)
        (fun lot => lot.quantity * lot.purchasePrice) (mkHolding now acc).lots
      have hQpos : 0 < calculateTotalQuantity acc.lots :=
        calculateTotalQuantity_pos acc.lots hposl hne
      have havg := avg_mul_total acc.lots hne hQpos
      have havg2 : (mkHolding now acc).avgPurchasePrice
          * ((((mkHolding now acc).lots.filter (fun l =>
              differenceInDays now l.purchaseDate ≤ 365)).map
                (fun lot => lot.quantity)).sum
            + (((mkHolding now acc).lots.filter (fun l =>
              ¬ differenceInDays now l.purchaseDate ≤ 365)).map
                (fun lot => lot.quantity)).sum)
          = (((mkHolding now acc).lots.filter (fun l =>
              differenceInDays now l.purchaseDate ≤ 365)).map
                (fun lot => lot.quantity * lot.purchasePrice)).sum
            + (((mkHolding now acc).lots.filter (fun l =>
              ¬ differenceInDays now l.purchaseDate ≤ 365)).map
                (fun lot => lot.quantity * lot.purchasePrice)).sum := by
        rw [hQ, hC]
        exact havg
      have htq : (mkHolding now acc).totalQuantity
          = ((mkHolding now acc).lots.map (fun lot => lot.quantity)).sum := rfl
      rw [htq, ← hQ, havg2]
      ring

/-- C10, witness: the straddling holding (one long-term lot, one short-term
lot) overlaid with a quote satisfies the partition identities. -/
theorem c10_st_lt_partition_witness :
    ∃ stq ltq sta lta stp ltp pnlv,
      (overlayHolding 500 [("A", ⟨8, 0, 0⟩)] straddleHolding).stQuantity
        = some stq ∧
      (overlayHolding 500 [("A", ⟨8, 0, 0⟩)] straddleHolding).ltQuantity
        = some ltq ∧
      (overlayHolding 500 [("A", ⟨8, 0, 0⟩)] straddleHolding).stAvgPrice
        = some sta ∧
      (overlayHolding 500 [("A", ⟨8, 0, 0⟩)] straddleHolding).ltAvgPrice
        = some lta ∧
      (overlayHolding 500 [("A", ⟨8, 0, 0⟩)] straddleHolding).stPnl
        = some stp ∧
      (overlayHolding 500 [("A", ⟨8, 0, 0⟩)] straddleHolding).ltPnl
        = some ltp ∧
      (overlayHolding 500 [("A", ⟨8, 0, 0⟩)] straddleHolding).pnl
        = some pnlv ∧
      stq + ltq
        = (overlayHolding 500 [("A", ⟨8, 0, 0⟩)] straddleHolding).totalQuantity ∧
      stq * sta + ltq * lta
        = (((overlayHolding 500 [("A", ⟨8, 0, 0⟩)] straddleHolding).lots).map
            (fun l => l.quantity * l.purchasePrice)).sum ∧
      stp + ltp = pnlv := by
  have hcalc : calculateHoldings 500 0 straddleTrades = [straddleHolding] := by
    norm_num [straddleTrades, straddleHolding, calculateHoldings,
      analyzePortfolio, groupTradesByHolding, insertTrade, createHoldingKey,
      processTradesForHolding, sortTradesChronologically, processTrade,
      applyFifoSell, applyFifoSellGo, removeEmptyLots, realizedEntriesForSell,
      mkHolding, calculateTotalQuantity, calculateAvgPurchasePrice,
      findOldestPurchaseDate, findNewestPurchaseDate, classifyHolding,
      differenceInDays, summarizeRealizedGains, List.insertionSort,
      List.orderedInsert, List.filter_cons]
  have hmem : overlayHolding 500 [("A", ⟨8, 0, 0⟩)] straddleHolding
      ∈ updateHoldingsWithPrices 500 [("A", ⟨8, 0, 0⟩)]
        (calculateHoldings 500 0 straddleTrades) := by
    rw [hcalc]
    exact List.mem_map_of_mem _ (List.mem_singleton.mpr rfl)
  have hcp : (overlayHolding 500 [("A", ⟨8, 0, 0⟩)] straddleHolding).currentPrice
      = some 8 := rfl
  exact c10_st_lt_partition 500 0 straddleTrades [("A", ⟨8, 0, 0⟩)]
    (by decide) (overlayHolding 500 [("A", ⟨8, 0, 0⟩)] straddleHolding)
    hmem 8 hcp
